import Mathlib

/-!
Verification of the graph analysis engine of `src/main.py`
(graph-theory-analyzer): BFS/DFS traversal, cycle detection, greedy
coloring, maximum clique, and the visualization state machine
(draw layering and animation control) of `GraphApp`.

The Python code operates on a networkx undirected simple graph whose
nodes are the integers `0..N-1`.  We embed such a graph as a sorted
node list together with a symmetric, irreflexive edge list.
-/

/-- An undirected simple graph with integer node identities, as used by
`main.py` (networkx graph: node set plus symmetric adjacency, no
self-loops, no parallel edges).  `nodes` is strictly sorted, matching
the `0..N-1` integer identities of the test graph; `edges` stores each
undirected edge in both directions, matching networkx's symmetric
neighbor queries. -/
structure Graph where
  nodes : List Nat
  edges : List (Nat × Nat)
  nodes_sorted : List.Chain' (· < ·) nodes
  edges_symm : ∀ p ∈ edges, (p.2, p.1) ∈ edges
  edges_irrefl : ∀ p ∈ edges, p.1 ≠ p.2
  edges_mem : ∀ p ∈ edges, p.1 ∈ nodes ∧ p.2 ∈ nodes

/-- Adjacency test: `G.has_edge(u, v)` / membership in `G.neighbors(u)`. -/
def Graph.adj (G : Graph) (u v : Nat) : Bool := decide ((u, v) ∈ G.edges)

/-- `sorted(G.neighbors(v))`: the neighbors of `v` in ascending
node-identity order (filtering the sorted node list yields exactly the
sorted neighbor list). -/
def neighbors (G : Graph) (v : Nat) : List Nat :=
  G.nodes.filter (fun w => G.adj v w)

theorem Graph.adj_symm (G : Graph) (u v : Nat) : G.adj u v = G.adj v u := by
  simp only [Graph.adj, decide_eq_decide]
  constructor
  · intro h; exact G.edges_symm (u, v) h
  · intro h; exact G.edges_symm (v, u) h

theorem Graph.adj_irrefl (G : Graph) (v : Nat) : G.adj v v = false := by
  simp only [Graph.adj, decide_eq_false_iff_not]
  intro h
  exact G.edges_irrefl (v, v) h rfl

theorem Graph.adj_mem_left (G : Graph) {u v : Nat} (h : G.adj u v = true) :
    u ∈ G.nodes := by
  simp only [Graph.adj, decide_eq_true_eq] at h
  exact (G.edges_mem (u, v) h).1

theorem Graph.adj_mem_right (G : Graph) {u v : Nat} (h : G.adj u v = true) :
    v ∈ G.nodes := by
  simp only [Graph.adj, decide_eq_true_eq] at h
  exact (G.edges_mem (u, v) h).2

theorem nodes_nodup (G : Graph) : G.nodes.Nodup := by
  have h := G.nodes_sorted
  rw [List.chain'_iff_pairwise] at h
  exact h.imp (fun hlt => Nat.ne_of_lt hlt)

theorem mem_neighbors (G : Graph) {v w : Nat} :
    w ∈ neighbors G v ↔ G.adj v w = true := by
  constructor
  · intro h
    exact (List.mem_filter.mp h).2
  · intro h
    exact List.mem_filter.mpr ⟨G.adj_mem_right h, h⟩

theorem neighbors_nodup (G : Graph) (v : Nat) : (neighbors G v).Nodup :=
  (nodes_nodup G).filter _

theorem neighbors_subset_nodes (G : Graph) (v : Nat) :
    ∀ w ∈ neighbors G v, w ∈ G.nodes := by
  intro w hw
  exact (List.mem_filter.mp hw).1

theorem neighbors_sorted (G : Graph) (v : Nat) :
    List.Chain' (· < ·) (neighbors G v) := by
  have h := G.nodes_sorted
  rw [List.chain'_iff_pairwise] at h ⊢
  exact h.filter _

/-- The mathematical graph denoted by a `Graph` value, for stating
reachability and shortest-path distance independently of the code. -/
def toSG (G : Graph) : SimpleGraph Nat where
  Adj := fun u v => G.adj u v = true
  symm := by
    intro u v h
    rw [G.adj_symm]
    exact h
  loopless := by
    intro v h
    rw [G.adj_irrefl] at h
    exact Bool.false_ne_true h

/-! ## Greedy coloring (`greedy_coloring` in `src/main.py`)

The Python code builds a dict `result`, iterating `sorted(G.nodes())`;
for each node it takes `set(result.get(neigh) for neigh in
G.neighbors(node))` (the `None`s contributed by not-yet-colored
neighbors never compare equal to an integer, so they are irrelevant to
the `while color in neighbor_colors` test, which we embed by dropping
them with `filterMap`), and increments `color` from 0 until it avoids
that set.  The dict is embedded as an association list in insertion
order. -/

/-- The `color = 0; while color in neighbor_colors: color += 1` loop,
with explicit fuel; `greedy_coloring` calls it with enough fuel for the
loop to finish. -/
def mexAux (s : List Nat) : Nat → Nat → Nat
  | 0, c => c
  | fuel+1, c => if c ∈ s then mexAux s fuel (c+1) else c

/-- `set(result.get(neigh) for neigh in G.neighbors(node))` with the
`None` entries dropped (they never equal an integer color). -/
def stepColors (G : Graph) (result : List (Nat × Nat)) (node : Nat) : List Nat :=
  (neighbors G node).filterMap (fun neigh => result.lookup neigh)

/-- One iteration of the `for node in sorted(G.nodes())` loop of
`greedy_coloring`. -/
def greedyStep (G : Graph) (result : List (Nat × Nat)) (node : Nat) :
    List (Nat × Nat) :=
  result ++
    [(node, mexAux (stepColors G result node) ((stepColors G result node).length + 1) 0)]

/-- `greedy_coloring(G)`: node-to-color association list, nodes
processed in ascending identity order. -/
def greedy_coloring (G : Graph) : List (Nat × Nat) :=
  G.nodes.foldl (greedyStep G) []

theorem mexAux_le_start (s : List Nat) :
    ∀ fuel c, c ≤ mexAux s fuel c := by
  intro fuel
  induction fuel with
  | zero => intro c; exact Nat.le_refl c
  | succ n ih =>
    intro c
    simp only [mexAux]
    by_cases h : c ∈ s
    · rw [if_pos h]
      exact Nat.le_trans (Nat.le_succ c) (ih (c+1))
    · rw [if_neg h]

theorem mexAux_spec (s : List Nat) :
    ∀ fuel c, (∃ m, c ≤ m ∧ m < c + fuel ∧ m ∉ s) →
      mexAux s fuel c ∉ s ∧ ∀ k, c ≤ k → k < mexAux s fuel c → k ∈ s := by
  intro fuel
  induction fuel with
  | zero =>
    intro c ⟨m, h1, h2, _⟩
    omega
  | succ n ih =>
    intro c ⟨m, h1, h2, h3⟩
    simp only [mexAux]
    by_cases h : c ∈ s
    · rw [if_pos h]
      have hmc : m ≠ c := fun he => h3 (he ▸ h)
      have ⟨ha, hb⟩ := ih (c+1) ⟨m, by omega, by omega, h3⟩
      refine ⟨ha, fun k hk1 hk2 => ?_⟩
      rcases Nat.eq_or_lt_of_le hk1 with he | hlt
      · exact he ▸ h
      · exact hb k hlt hk2
    · rw [if_neg h]
      exact ⟨h, fun k hk1 hk2 => absurd (Nat.lt_of_le_of_lt hk1 hk2) (Nat.lt_irrefl c)⟩

theorem exists_le_length_not_mem (s : List Nat) : ∃ m, m ≤ s.length ∧ m ∉ s := by
  by_contra hcon
  push_neg at hcon
  have hsub : List.range (s.length + 1) ⊆ s := by
    intro m hm
    rw [List.mem_range] at hm
    exact hcon m (Nat.lt_succ_iff.mp hm)
  have := ((List.nodup_range _).subperm hsub).length_le
  rw [List.length_range] at this
  omega

/-- The color picked for a node: not among the given neighbor colors,
and every smaller color is among them. -/
theorem mex_choice (s : List Nat) :
    mexAux s (s.length + 1) 0 ∉ s ∧
      ∀ k, k < mexAux s (s.length + 1) 0 → k ∈ s := by
  have ⟨m, hm1, hm2⟩ := exists_le_length_not_mem s
  have ⟨ha, hb⟩ := mexAux_spec s (s.length + 1) 0 ⟨m, Nat.zero_le m, by omega, hm2⟩
  exact ⟨ha, fun k hk => hb k (Nat.zero_le k) hk⟩

theorem mex_le_length (s : List Nat) : mexAux s (s.length + 1) 0 ≤ s.length := by
  have ⟨_, hb⟩ := mex_choice s
  by_contra hcon
  push_neg at hcon
  have hsub : List.range (mexAux s (s.length + 1) 0) ⊆ s := by
    intro k hk
    rw [List.mem_range] at hk
    exact hb k hk
  have := ((List.nodup_range _).subperm hsub).length_le
  rw [List.length_range] at this
  omega

theorem lookup_eq_none_of_not_mem {r : List (Nat × Nat)} {x : Nat}
    (h : x ∉ r.map Prod.fst) : r.lookup x = none := by
  induction r with
  | nil => rfl
  | cons p t ih =>
    simp only [List.map_cons, List.mem_cons] at h
    push_neg at h
    have hb : (x == p.1) = false := beq_eq_false_iff_ne.mpr h.1
    simp only [List.lookup, hb]
    exact ih h.2

theorem lookup_some_of_mem_keys {r : List (Nat × Nat)} {x : Nat}
    (h : x ∈ r.map Prod.fst) : ∃ c, r.lookup x = some c := by
  induction r with
  | nil => simp at h
  | cons p t ih =>
    by_cases hx : x = p.1
    · have hb : (x == p.1) = true := beq_iff_eq.mpr hx
      simp only [List.lookup, hb]
      exact ⟨p.2, rfl⟩
    · have hb : (x == p.1) = false := beq_eq_false_iff_ne.mpr hx
      simp only [List.lookup, hb]
      simp only [List.map_cons, List.mem_cons] at h
      exact ih (h.resolve_left hx)

theorem lookup_append_left {r t : List (Nat × Nat)} {x : Nat} {c : Nat}
    (h : r.lookup x = some c) : (r ++ t).lookup x = some c := by
  induction r with
  | nil => simp [List.lookup] at h
  | cons p s ih =>
    simp only [List.lookup] at h ⊢
    cases hb : x == p.1 with
    | true =>
      rw [hb] at h
      exact h
    | false =>
      rw [hb] at h
      exact ih h

theorem lookup_append_right {r t : List (Nat × Nat)} {x : Nat}
    (h : x ∉ r.map Prod.fst) : (r ++ t).lookup x = t.lookup x := by
  induction r with
  | nil => rfl
  | cons p s ih =>
    simp only [List.map_cons, List.mem_cons] at h
    push_neg at h
    have hb : (x == p.1) = false := beq_eq_false_iff_ne.mpr h.1
    simp only [List.cons_append, List.lookup, hb]
    exact ih h.2

theorem lookup_mem {r : List (Nat × Nat)} {x c : Nat}
    (h : r.lookup x = some c) : (x, c) ∈ r := by
  induction r with
  | nil => simp [List.lookup] at h
  | cons p t ih =>
    simp only [List.lookup] at h
    cases hb : x == p.1 with
    | true =>
      rw [hb] at h
      have hx : x = p.1 := beq_iff_eq.mp hb
      have hp : p = (x, c) := by
        cases p
        simp_all
      simp [hp]
    | false =>
      rw [hb] at h
      exact List.mem_cons_of_mem p (ih h)

theorem mem_lookup_of_keys_nodup {r : List (Nat × Nat)} {x c : Nat}
    (hn : (r.map Prod.fst).Nodup) (h : (x, c) ∈ r) : r.lookup x = some c := by
  induction r with
  | nil => simp at h
  | cons p t ih =>
    simp only [List.map_cons, List.nodup_cons] at hn
    rcases List.mem_cons.mp h with he | ht
    · rw [← he]
      simp [List.lookup]
    · have hxp : x ≠ p.1 := by
        intro he
        exact hn.1 (he ▸ (List.mem_map_of_mem Prod.fst ht))
      have hb : (x == p.1) = false := beq_eq_false_iff_ne.mpr hxp
      simp only [List.lookup, hb]
      exact ih hn.2 ht

theorem filterMap_eq_filterMap_filter {α β : Type} {f g : α → Option β}
    {p : α → Bool} :
    ∀ (l : List α), (∀ w ∈ l, (p w = true → f w = g w) ∧ (p w = false → f w = none)) →
      l.filterMap f = (l.filter p).filterMap g := by
  intro l
  induction l with
  | nil => intro _; rfl
  | cons a t ih =>
    intro h
    have ha := h a (List.mem_cons_self a t)
    have ht := fun w hw => h w (List.mem_cons_of_mem a hw)
    by_cases hp : p a = true
    · rw [List.filter_cons_of_pos hp]
      simp only [List.filterMap_cons, ha.1 hp]
      cases g a with
      | none => exact ih ht
      | some b => rw [ih ht]
    · have hp' : p a = false := Bool.eq_false_iff.mpr hp
      rw [List.filter_cons_of_neg (by simp [hp'])]
      simp only [List.filterMap_cons, ha.2 hp']
      exact ih ht

theorem greedy_foldl_map_fst (G : Graph) :
    ∀ (l : List Nat) (r : List (Nat × Nat)),
      (l.foldl (greedyStep G) r).map Prod.fst = r.map Prod.fst ++ l := by
  intro l
  induction l with
  | nil => intro r; simp
  | cons n t ih =>
    intro r
    simp only [List.foldl_cons]
    rw [ih]
    simp [greedyStep]

theorem greedy_foldl_lookup_stable (G : Graph) :
    ∀ (l : List Nat) (r : List (Nat × Nat)) (x c : Nat),
      r.lookup x = some c → (l.foldl (greedyStep G) r).lookup x = some c := by
  intro l
  induction l with
  | nil => intro r x c h; exact h
  | cons n t ih =>
    intro r x c h
    simp only [List.foldl_cons]
    refine ih _ x c ?_
    simp only [greedyStep]
    exact lookup_append_left h

theorem le_length_of_forall_lt_mem {s : List Nat} {c : Nat}
    (h : ∀ k, k < c → k ∈ s) : c ≤ s.length := by
  have hsub : List.range c ⊆ s := by
    intro k hk
    rw [List.mem_range] at hk
    exact h k hk
  have := ((List.nodup_range _).subperm hsub).length_le
  rw [List.length_range] at this
  exact this

/-- The colors that the final coloring assigns to the neighbors of `n`
preceding `n` in ascending identity order: exactly the neighbor colors
already assigned when the greedy loop reaches `n`. -/
def earlierNeighborColors (G : Graph) (n : Nat) : List Nat :=
  ((neighbors G n).filter (fun w => decide (w < n))).filterMap
    (fun w => (greedy_coloring G).lookup w)

theorem greedy_assign_master (G : Graph) :
    ∀ (l pre : List Nat),
      pre ++ l = G.nodes →
      ∀ n ∈ l, ∃ c, (greedy_coloring G).lookup n = some c ∧
        c ∉ earlierNeighborColors G n ∧
        (∀ k, k < c → k ∈ earlierNeighborColors G n) := by
  intro l
  induction l with
  | nil =>
    intro pre h n hn
    simp at hn
  | cons m t ih =>
    intro pre hsplit n hn
    have hsort : List.Pairwise (· < ·) (pre ++ m :: t) := by
      rw [hsplit, ← List.chain'_iff_pairwise]
      exact G.nodes_sorted
    rcases List.mem_cons.mp hn with he | ht
    · subst he
      have hpre_lt : ∀ p ∈ pre, p < n := by
        intro p hp
        exact (List.pairwise_append.mp hsort).2.2 p hp n (List.mem_cons_self n t)
      have ht_gt : ∀ q ∈ t, n < q := by
        intro q hq
        exact (List.pairwise_cons.mp (List.pairwise_append.mp hsort).2.1).1 q hq
      have hr0keys : (pre.foldl (greedyStep G) []).map Prod.fst = pre := by
        have := greedy_foldl_map_fst G pre []
        simpa using this
      set r0 := pre.foldl (greedyStep G) [] with hr0
      have hfinal : greedy_coloring G = t.foldl (greedyStep G) (greedyStep G r0 n) := by
        rw [greedy_coloring, ← hsplit, List.foldl_append, List.foldl_cons]
      set nc := stepColors G r0 n with hnc
      have hstep_lookup :
          (greedyStep G r0 n).lookup n = some (mexAux nc (nc.length + 1) 0) := by
        have hnot : n ∉ r0.map Prod.fst := by
          rw [hr0keys]
          intro hcon
          exact Nat.lt_irrefl n (hpre_lt n hcon)
        simp only [greedyStep]
        rw [lookup_append_right hnot]
        simp [List.lookup]
      have hlook : (greedy_coloring G).lookup n = some (mexAux nc (nc.length + 1) 0) := by
        rw [hfinal]
        exact greedy_foldl_lookup_stable G t _ n _ hstep_lookup
      have hnc_eq : nc = earlierNeighborColors G n := by
        rw [hnc, earlierNeighborColors, stepColors]
        apply filterMap_eq_filterMap_filter
        intro w hw
        constructor
        · intro hwlt
          rw [decide_eq_true_eq] at hwlt
          have hwnodes : w ∈ G.nodes := neighbors_subset_nodes G n w hw
          have hwpre : w ∈ pre := by
            rw [← hsplit] at hwnodes
            rcases List.mem_append.mp hwnodes with h1 | h2
            · exact h1
            · rcases List.mem_cons.mp h2 with h3 | h4
              · omega
              · have := ht_gt w h4
                omega
          have hwkeys : w ∈ r0.map Prod.fst := by rw [hr0keys]; exact hwpre
          obtain ⟨cw, hcw⟩ := lookup_some_of_mem_keys hwkeys
          rw [hcw, hfinal]
          exact (greedy_foldl_lookup_stable G t _ w cw
            (by simp only [greedyStep]; exact lookup_append_left hcw)).symm
        · intro hwge
          rw [decide_eq_false_iff_not] at hwge
          have hwnot : w ∉ r0.map Prod.fst := by
            rw [hr0keys]
            intro hcon
            exact hwge (hpre_lt w hcon)
          exact lookup_eq_none_of_not_mem hwnot
      have hmex := mex_choice nc
      refine ⟨mexAux nc (nc.length + 1) 0, hlook, ?_, ?_⟩
      · rw [← hnc_eq]
        exact hmex.1
      · rw [← hnc_eq]
        exact hmex.2
    · exact ih (pre ++ [m]) (by rw [← hsplit]; simp) n ht

theorem greedy_keys (G : Graph) :
    (greedy_coloring G).map Prod.fst = G.nodes := by
  have := greedy_foldl_map_fst G G.nodes []
  simpa [greedy_coloring] using this

theorem greedy_assign (G : Graph) :
    ∀ n ∈ G.nodes, ∃ c, (greedy_coloring G).lookup n = some c ∧
      c ∉ earlierNeighborColors G n ∧
      (∀ k, k < c → k ∈ earlierNeighborColors G n) :=
  greedy_assign_master G G.nodes [] rfl

theorem greedy_proper_lt (G : Graph) {u v cu cv : Nat} (huv : u < v)
    (hadj : G.adj u v = true)
    (hu : (greedy_coloring G).lookup u = some cu)
    (hv : (greedy_coloring G).lookup v = some cv) : cu ≠ cv := by
  have hvnodes : v ∈ G.nodes := G.adj_mem_right hadj
  obtain ⟨c, hc, hnot, _⟩ := greedy_assign G v hvnodes
  have hceq : c = cv := by
    rw [hc] at hv
    exact Option.some.inj hv
  subst hceq
  have hmemu : u ∈ neighbors G v := by
    rw [mem_neighbors, G.adj_symm]
    exact hadj
  have hcu : cu ∈ earlierNeighborColors G v := by
    rw [earlierNeighborColors]
    exact List.mem_filterMap.mpr
      ⟨u, List.mem_filter.mpr ⟨hmemu, by simpa using huv⟩, hu⟩
  intro he
  rw [he] at hcu
  exact hnot hcu

theorem greedy_proper (G : Graph) {u v cu cv : Nat}
    (hadj : G.adj u v = true)
    (hu : (greedy_coloring G).lookup u = some cu)
    (hv : (greedy_coloring G).lookup v = some cv) : cu ≠ cv := by
  have hne : u ≠ v := by
    intro he
    rw [he, G.adj_irrefl] at hadj
    exact Bool.false_ne_true hadj
  rcases Nat.lt_or_ge u v with hlt | hge
  · exact greedy_proper_lt G hlt hadj hu hv
  · have hlt : v < u := Nat.lt_of_le_of_ne hge (Ne.symm hne)
    exact (greedy_proper_lt G hlt (by rw [G.adj_symm]; exact hadj) hv hu).symm

theorem greedy_color_down (G : Graph) {c : Nat}
    (h : (c+1) ∈ (greedy_coloring G).map Prod.snd) :
    c ∈ (greedy_coloring G).map Prod.snd := by
  obtain ⟨p, hmem, hsnd⟩ := List.mem_map.mp h
  obtain ⟨n, c'⟩ := p
  simp only at hsnd
  subst hsnd
  have hkn : ((greedy_coloring G).map Prod.fst).Nodup := by
    rw [greedy_keys]
    exact nodes_nodup G
  have hlook : (greedy_coloring G).lookup n = some (c+1) :=
    mem_lookup_of_keys_nodup hkn hmem
  have hnnodes : n ∈ G.nodes := by
    rw [← greedy_keys G]
    exact List.mem_map_of_mem Prod.fst hmem
  obtain ⟨cc, hcc, _, hall⟩ := greedy_assign G n hnnodes
  have hcceq : cc = c + 1 := by
    rw [hcc] at hlook
    exact Option.some.inj hlook
  have hcmem : c ∈ earlierNeighborColors G n := by
    apply hall
    omega
  rw [earlierNeighborColors] at hcmem
  obtain ⟨w, _, hlw⟩ := List.mem_filterMap.mp hcmem
  exact List.mem_map.mpr ⟨(w, c), lookup_mem hlw, rfl⟩

theorem le_foldr_max {l : List Nat} : ∀ c ∈ l, c ≤ l.foldr max 0 := by
  induction l with
  | nil => intro c hc; simp at hc
  | cons a t ih =>
    intro c hc
    rcases List.mem_cons.mp hc with he | ht
    · subst he
      exact Nat.le_max_left _ _
    · exact Nat.le_trans (ih c ht) (Nat.le_max_right _ _)

theorem foldr_max_mem {l : List Nat} (h : l ≠ []) : l.foldr max 0 ∈ l := by
  induction l with
  | nil => exact absurd rfl h
  | cons a t ih =>
    by_cases ht : t = []
    · subst ht
      simp
    · simp only [List.foldr_cons]
      rcases Nat.le_total a (t.foldr max 0) with hle | hle
      · rw [Nat.max_eq_right hle]
        exact List.mem_cons_of_mem a (ih ht)
      · rw [Nat.max_eq_left hle]
        exact List.mem_cons_self a t

theorem greedy_colors_range (G : Graph) :
    ∃ k, ∀ c, c ∈ (greedy_coloring G).map Prod.snd ↔ c < k := by
  by_cases hne : (greedy_coloring G).map Prod.snd = []
  · refine ⟨0, fun c => ?_⟩
    rw [hne]
    simp
  · refine ⟨((greedy_coloring G).map Prod.snd).foldr max 0 + 1, fun c => ⟨fun hc =>
      Nat.lt_succ_of_le (le_foldr_max c hc), fun hc => ?_⟩⟩
    set M := ((greedy_coloring G).map Prod.snd).foldr max 0 with hM
    have hdown : ∀ j, (M - j) ∈ (greedy_coloring G).map Prod.snd := by
      intro j
      induction j with
      | zero => simpa using foldr_max_mem hne
      | succ j ih =>
        by_cases hj : M ≤ j
        · have he : M - (j+1) = M - j := by omega
          rw [he]
          exact ih
        · have he : M - j = (M - (j+1)) + 1 := by omega
          rw [he] at ih
          exact greedy_color_down G ih
    have he : c = M - (M - c) := by omega
    rw [he]
    exact hdown (M - c)

theorem greedy_color_le_degree (G : Graph) :
    ∀ n c, (greedy_coloring G).lookup n = some c → c ≤ (neighbors G n).length := by
  intro n c hc
  have hnnodes : n ∈ G.nodes := by
    rw [← greedy_keys G]
    exact List.mem_map_of_mem Prod.fst (lookup_mem hc)
  obtain ⟨cc, hcc, _, hall⟩ := greedy_assign G n hnnodes
  have hcceq : cc = c := by
    rw [hcc] at hc
    exact Option.some.inj hc
  subst hcceq
  have h1 : cc ≤ (earlierNeighborColors G n).length :=
    le_length_of_forall_lt_mem hall
  calc cc ≤ (earlierNeighborColors G n).length := h1
    _ ≤ ((neighbors G n).filter (fun w => decide (w < n))).length :=
        List.length_filterMap_le _ _
    _ ≤ (neighbors G n).length := List.length_filter_le _ _

/-- The maximum degree of the graph (0 for the empty graph). -/
def maxDegree (G : Graph) : Nat :=
  (G.nodes.map (fun v => (neighbors G v).length)).foldr max 0

theorem greedy_num_colors_le (G : Graph) :
    ((greedy_coloring G).map Prod.snd).dedup.length ≤ maxDegree G + 1 := by
  have hsub : ((greedy_coloring G).map Prod.snd).dedup ⊆
      List.range (maxDegree G + 1) := by
    intro c hc
    rw [List.mem_dedup] at hc
    obtain ⟨p, hmem, hsnd⟩ := List.mem_map.mp hc
    obtain ⟨n, c'⟩ := p
    simp only at hsnd
    subst hsnd
    have hkn : ((greedy_coloring G).map Prod.fst).Nodup := by
      rw [greedy_keys]
      exact nodes_nodup G
    have hlook := mem_lookup_of_keys_nodup hkn hmem
    have hdeg := greedy_color_le_degree G n _ hlook
    have hnnodes : n ∈ G.nodes := by
      rw [← greedy_keys G]
      exact List.mem_map_of_mem Prod.fst hmem
    have hmax : (neighbors G n).length ≤ maxDegree G :=
      le_foldr_max _ (List.mem_map_of_mem _ hnnodes)
    rw [List.mem_range]
    omega
  have := ((List.nodup_dedup _).subperm hsub).length_le
  rw [List.length_range] at this
  exact this

/-- The 4-cycle `0-1-2-3-0`: the spec's fixed regression example for
greedy coloring (expected colors `{0,1,0,1}` in identity order). -/
def cycle4 : Graph where
  nodes := [0, 1, 2, 3]
  edges := [(0,1), (1,0), (1,2), (2,1), (2,3), (3,2), (3,0), (0,3)]
  nodes_sorted := by
    simp only [List.chain'_cons, List.chain'_singleton, and_true]
    omega
  edges_symm := by decide
  edges_irrefl := by decide
  edges_mem := by decide

/-- C2: `greedy_coloring(G)` processes nodes in ascending identity
order and assigns each node the smallest non-negative integer not among
the colors already assigned to its neighbors (unprocessed neighbors
contribute nothing); for every edge the endpoint colors differ, and the
set of colors used is a contiguous range `0..k-1`. -/
theorem claim_C2_greedy_coloring (G : Graph) :
    ((greedy_coloring G).map Prod.fst = G.nodes ∧
      List.Chain' (· < ·) ((greedy_coloring G).map Prod.fst)) ∧
    (∀ n ∈ G.nodes, ∃ c, (greedy_coloring G).lookup n = some c ∧
      c ∉ earlierNeighborColors G n ∧
      (∀ k, k < c → k ∈ earlierNeighborColors G n)) ∧
    (∀ u v cu cv, G.adj u v = true →
      (greedy_coloring G).lookup u = some cu →
      (greedy_coloring G).lookup v = some cv → cu ≠ cv) ∧
    (∃ k, ∀ c, c ∈ (greedy_coloring G).map Prod.snd ↔ c < k) := by
  refine ⟨⟨greedy_keys G, ?_⟩, greedy_assign G, ?_, greedy_colors_range G⟩
  · rw [greedy_keys]
    exact G.nodes_sorted
  · intro u v cu cv hadj hu hv
    exact greedy_proper G hadj hu hv

/-- Witness for C2 on the 4-cycle: the coloring evaluates to
`{0:0, 1:1, 2:0, 3:1}` and the claim instantiates there. -/
theorem claim_C2_greedy_coloring_witness :
    greedy_coloring cycle4 = [(0,0), (1,1), (2,0), (3,1)] ∧
    (∀ u v cu cv, cycle4.adj u v = true →
      (greedy_coloring cycle4).lookup u = some cu →
      (greedy_coloring cycle4).lookup v = some cv → cu ≠ cv) :=
  ⟨by decide, (claim_C2_greedy_coloring cycle4).2.2.1⟩

/-- C10: each node's greedy color is at most its degree, and the total
number of colors used is at most the maximum degree plus one. -/
theorem claim_C10_greedy_degree_bound (G : Graph) :
    (∀ n c, (greedy_coloring G).lookup n = some c →
      c ≤ (neighbors G n).length) ∧
    ((greedy_coloring G).map Prod.snd).dedup.length ≤ maxDegree G + 1 :=
  ⟨greedy_color_le_degree G, greedy_num_colors_le G⟩

/-- Witness for C10 on the 4-cycle: node 0 has degree 2 and color 0,
and 2 colors are used while the maximum degree is 2. -/
theorem claim_C10_greedy_degree_bound_witness :
    (∀ n c, (greedy_coloring cycle4).lookup n = some c →
      c ≤ (neighbors cycle4 n).length) ∧
    ((greedy_coloring cycle4).map Prod.snd).dedup.length = 2 ∧
    maxDegree cycle4 = 2 :=
  ⟨(claim_C10_greedy_degree_bound cycle4).1, by decide, by decide⟩

/-! ## Maximum clique (`find_max_clique` in `src/main.py`)

`find_max_clique` calls `nx.find_cliques(G)` (networkx, outside this
repository) and takes `max(cliques, key=len)`; Python's `max` returns
the first item of maximal key and raises `ValueError` on an empty
sequence. -/

/-- Pairwise adjacency of a node list (complete subgraph check). -/
def pairwiseAdj (G : Graph) : List Nat → Bool
  | [] => true
  | a :: t => t.all (fun b => G.adj a b) && pairwiseAdj G t

/-- Inclusion-maximal complete subgraph: pairwise adjacent, and no
node of the graph outside the list is adjacent to all of it. -/
def isMaximalClique (G : Graph) (c : List Nat) : Bool :=
  pairwiseAdj G c &&
    G.nodes.all (fun x => decide (x ∈ c) || !(c.all (fun y => G.adj x y)))

/-- Modelled from the spec: `nx.find_cliques` is not part of this
repository; per the spec it "enumerates all maximal cliques
(inclusion-maximal complete subgraphs)".  We model its output as the
list of all maximal cliques, one canonical representative per clique
set (the subsequences of the sorted node list), in a fixed
deterministic order; networkx returns nothing for a graph with no
nodes (`if len(G) == 0: return`). -/
def find_cliques (G : Graph) : List (List Nat) :=
  if G.nodes.isEmpty then []
  else G.nodes.sublists.filter (fun c => isMaximalClique G c)

/-- `find_max_clique(G)`: `max(cliques, key=len)` — the first clique of
maximal length; `none` models the `ValueError` Python's `max` raises on
an empty sequence. -/
def find_max_clique (G : Graph) : Option (List Nat) :=
  match find_cliques G with
  | [] => none
  | c :: cs => some (cs.foldl (fun best x => if x.length > best.length then x else best) c)

theorem pairwiseAdj_iff (G : Graph) :
    ∀ c : List Nat, pairwiseAdj G c = true ↔
      List.Pairwise (fun a b => G.adj a b = true) c := by
  intro c
  induction c with
  | nil => simp [pairwiseAdj]
  | cons a t ih =>
    simp only [pairwiseAdj, Bool.and_eq_true, List.all_eq_true, List.pairwise_cons]
    rw [ih]

theorem pairwiseAdj_of_forall (G : Graph) {c : List Nat} (hnodup : c.Nodup)
    (h : ∀ a ∈ c, ∀ b ∈ c, a ≠ b → G.adj a b = true) :
    pairwiseAdj G c = true := by
  rw [pairwiseAdj_iff]
  exact hnodup.imp_of_mem (fun ha hb hne => h _ ha _ hb hne)

theorem forall_of_pairwiseAdj (G : Graph) {c : List Nat}
    (h : pairwiseAdj G c = true) :
    ∀ a ∈ c, ∀ b ∈ c, a ≠ b → G.adj a b = true := by
  rw [pairwiseAdj_iff] at h
  intro a ha b hb hne
  have hsymm : Symmetric (fun a b => G.adj a b = true) := by
    intro x y hxy
    rw [G.adj_symm]
    exact hxy
  exact h.forall hsymm ha hb hne

theorem isMaximalClique_iff (G : Graph) (c : List Nat) :
    isMaximalClique G c = true ↔
      pairwiseAdj G c = true ∧
        ∀ x ∈ G.nodes, x ∉ c → ¬(∀ y ∈ c, G.adj x y = true) := by
  simp only [isMaximalClique, Bool.and_eq_true, List.all_eq_true, Bool.or_eq_true,
    decide_eq_true_eq, Bool.not_eq_true']
  constructor
  · intro ⟨h1, h2⟩
    refine ⟨h1, fun x hx hxc hall => ?_⟩
    rcases h2 x hx with hmem | hne
    · exact hxc hmem
    · have hat : c.all (fun y => G.adj x y) = true := List.all_eq_true.mpr hall
      rw [hat] at hne
      exact absurd hne (by simp)
  · intro ⟨h1, h2⟩
    refine ⟨h1, fun x hx => ?_⟩
    by_cases hxc : x ∈ c
    · exact Or.inl hxc
    · refine Or.inr (Bool.eq_false_iff.mpr fun hall => h2 x hx hxc ?_)
      rw [List.all_eq_true] at hall
      exact hall

theorem exists_max_length :
    ∀ (L : List (List Nat)), L ≠ [] →
      ∃ m, m ∈ L ∧ ∀ x ∈ L, x.length ≤ m.length := by
  intro L
  induction L with
  | nil => intro h; exact absurd rfl h
  | cons a t ih =>
    intro _
    by_cases ht : t = []
    · subst ht
      refine ⟨a, List.mem_cons_self a [], ?_⟩
      intro x hx
      rcases List.mem_cons.mp hx with he | h2
      · exact he ▸ Nat.le_refl _
      · simp at h2
    · obtain ⟨m, hm, hmax⟩ := ih ht
      rcases Nat.le_total a.length m.length with hle | hle
      · refine ⟨m, List.mem_cons_of_mem a hm, ?_⟩
        intro x hx
        rcases List.mem_cons.mp hx with he | h2
        · exact he ▸ hle
        · exact hmax x h2
      · refine ⟨a, List.mem_cons_self a t, ?_⟩
        intro x hx
        rcases List.mem_cons.mp hx with he | h2
        · exact he ▸ Nat.le_refl _
        · exact Nat.le_trans (hmax x h2) hle

theorem foldl_pick_mem :
    ∀ (cs : List (List Nat)) (c : List Nat),
      cs.foldl (fun best x => if x.length > best.length then x else best) c ∈ c :: cs := by
  intro cs
  induction cs with
  | nil => intro c; exact List.mem_cons_self _ _
  | cons a t ih =>
    intro c
    simp only [List.foldl_cons]
    by_cases h : a.length > c.length
    · rw [if_pos h]
      rcases List.mem_cons.mp (ih a) with he | h2
      · rw [he]
        exact List.mem_cons_of_mem c (List.mem_cons_self a t)
      · exact List.mem_cons_of_mem c (List.mem_cons_of_mem a h2)
    · rw [if_neg h]
      rcases List.mem_cons.mp (ih c) with he | h2
      · rw [he]
        exact List.mem_cons_self c (a :: t)
      · exact List.mem_cons_of_mem c (List.mem_cons_of_mem a h2)

theorem foldl_pick_ge :
    ∀ (cs : List (List Nat)) (c x : List Nat), x ∈ c :: cs →
      x.length ≤
        (cs.foldl (fun best x => if x.length > best.length then x else best) c).length := by
  intro cs
  induction cs with
  | nil =>
    intro c x hx
    rcases List.mem_cons.mp hx with he | h2
    · exact he ▸ Nat.le_refl _
    · simp at h2
  | cons a t ih =>
    intro c x hx
    simp only [List.foldl_cons]
    have hpick : c.length ≤ (if a.length > c.length then a else c).length ∧
        a.length ≤ (if a.length > c.length then a else c).length := by
      by_cases h : a.length > c.length
      · rw [if_pos h]
        omega
      · rw [if_neg h]
        omega
    rcases List.mem_cons.mp hx with he | h2
    · subst he
      exact Nat.le_trans hpick.1
        (ih _ _ (List.mem_cons_self _ t))
    · rcases List.mem_cons.mp h2 with he | h3
      · subst he
        exact Nat.le_trans hpick.2
          (ih _ _ (List.mem_cons_self _ t))
      · exact ih _ x (List.mem_cons_of_mem _ h3)

theorem find_cliques_sound (G : Graph) {S : List Nat} (h : S ∈ find_cliques G) :
    isMaximalClique G S = true ∧ S.Nodup ∧ List.Sublist S G.nodes := by
  rw [find_cliques] at h
  by_cases hemp : G.nodes.isEmpty
  · rw [if_pos hemp] at h
    simp at h
  · rw [if_neg hemp] at h
    have h2 := List.mem_filter.mp h
    have hsub := List.mem_sublists.mp h2.1
    exact ⟨h2.2, (nodes_nodup G).sublist hsub, hsub⟩

theorem isMaximalClique_perm (G : Graph) {c c' : List Nat}
    (hperm : List.Perm c' c) (hnodup : c'.Nodup)
    (h : isMaximalClique G c = true) : isMaximalClique G c' = true := by
  rw [isMaximalClique_iff] at h ⊢
  obtain ⟨h1, h2⟩ := h
  constructor
  · apply pairwiseAdj_of_forall G hnodup
    intro a ha b hb hne
    exact forall_of_pairwiseAdj G h1 a (hperm.mem_iff.mp ha) b (hperm.mem_iff.mp hb) hne
  · intro x hx hxc hall
    exact h2 x hx (fun hc => hxc (hperm.mem_iff.mpr hc))
      (fun y hy => hall y (hperm.mem_iff.mpr hy))

theorem find_cliques_ne_nil (G : Graph) (hne : G.nodes ≠ []) :
    find_cliques G ≠ [] := by
  obtain ⟨v, hv⟩ := List.exists_mem_of_ne_nil G.nodes hne
  have hLne : [v] ∈ G.nodes.sublists.filter (fun c => pairwiseAdj G c) :=
    List.mem_filter.mpr ⟨List.mem_sublists.mpr (List.singleton_sublist.mpr hv),
      by simp [pairwiseAdj]⟩
  obtain ⟨m, hmL, hmax⟩ :=
    exists_max_length _ (List.ne_nil_of_mem hLne)
  have hm := List.mem_filter.mp hmL
  have hmsub : List.Sublist m G.nodes := List.mem_sublists.mp hm.1
  have hmnodup : m.Nodup := (nodes_nodup G).sublist hmsub
  have hmmax : isMaximalClique G m = true := by
    rw [isMaximalClique_iff]
    refine ⟨hm.2, ?_⟩
    intro x hx hxm hall
    set m' := G.nodes.filter (fun a => decide (a ∈ m) || decide (a = x)) with hm_def
    have hm_nodup : m'.Nodup := (nodes_nodup G).filter _
    have hm_sub : List.Sublist m' G.nodes := List.filter_sublist G.nodes
    have hperm : List.Perm m' (x :: m) := by
      refine (List.perm_ext_iff_of_nodup hm_nodup ?_).mpr ?_
      · rw [List.nodup_cons]
        exact ⟨hxm, hmnodup⟩
      · intro a
        rw [hm_def]
        simp only [List.mem_filter, Bool.or_eq_true, decide_eq_true_eq, List.mem_cons]
        constructor
        · intro ⟨_, h2⟩
          tauto
        · intro h
          rcases h with he | hmem
          · exact ⟨he ▸ hx, Or.inr he⟩
          · exact ⟨hmsub.subset hmem, Or.inl hmem⟩
    have hm_clique : pairwiseAdj G m' = true := by
      apply pairwiseAdj_of_forall G hm_nodup
      intro a ha b hb hne2
      have ha' := hperm.mem_iff.mp ha
      have hb' := hperm.mem_iff.mp hb
      rcases List.mem_cons.mp ha' with hea | hma
      · rcases List.mem_cons.mp hb' with heb | hmb
        · exact absurd (hea.trans heb.symm) hne2
        · rw [hea]
          exact hall b hmb
      · rcases List.mem_cons.mp hb' with heb | hmb
        · rw [heb, G.adj_symm]
          exact hall a hma
        · exact forall_of_pairwiseAdj G hm.2 a hma b hmb hne2
    have hm_L : m' ∈ G.nodes.sublists.filter (fun c => pairwiseAdj G c) :=
      List.mem_filter.mpr ⟨List.mem_sublists.mpr hm_sub, hm_clique⟩
    have hle := hmax m' hm_L
    have hlen : m'.length = m.length + 1 := by
      rw [hperm.length_eq]
      rfl
    omega
  have hmem : m ∈ find_cliques G := by
    rw [find_cliques, if_neg (by simpa [List.isEmpty_iff] using hne)]
    exact List.mem_filter.mpr ⟨hm.1, hmmax⟩
  exact List.ne_nil_of_mem hmem

theorem find_cliques_complete (G : Graph) {c : List Nat}
    (hnodup : c.Nodup) (hmem : ∀ a ∈ c, a ∈ G.nodes)
    (hmax : isMaximalClique G c = true) (hne : G.nodes ≠ []) :
    ∃ c', c' ∈ find_cliques G ∧ c'.length = c.length := by
  set c' := G.nodes.filter (fun a => decide (a ∈ c)) with hc_def
  have hc_nodup : c'.Nodup := (nodes_nodup G).filter _
  have hc_sub : List.Sublist c' G.nodes := List.filter_sublist G.nodes
  have hperm : List.Perm c' c := by
    refine (List.perm_ext_iff_of_nodup hc_nodup hnodup).mpr ?_
    intro a
    rw [hc_def]
    simp only [List.mem_filter, decide_eq_true_eq]
    exact ⟨fun h => h.2, fun h => ⟨hmem a h, h⟩⟩
  refine ⟨c', ?_, hperm.length_eq⟩
  rw [find_cliques, if_neg (by simpa [List.isEmpty_iff] using hne)]
  exact List.mem_filter.mpr ⟨List.mem_sublists.mpr hc_sub,
    isMaximalClique_perm G hperm hc_nodup hmax⟩

/-- C6: for a graph with at least one node, `find_max_clique(G)` returns
a set `S` that is a clique (pairwise adjacent), maximal (no outside node
is adjacent to all of `S`), and of maximum cardinality among all maximal
cliques of `G`. -/
theorem claim_C6_find_max_clique (G : Graph) (hne : G.nodes ≠ []) :
    ∃ S, find_max_clique G = some S ∧
      (∀ a ∈ S, ∀ b ∈ S, a ≠ b → G.adj a b = true) ∧
      (∀ x ∈ G.nodes, x ∉ S → ¬(∀ y ∈ S, G.adj x y = true)) ∧
      (∀ c : List Nat, c.Nodup → (∀ a ∈ c, a ∈ G.nodes) →
        (∀ a ∈ c, ∀ b ∈ c, a ≠ b → G.adj a b = true) →
        (∀ x ∈ G.nodes, x ∉ c → ¬(∀ y ∈ c, G.adj x y = true)) →
        c.length ≤ S.length) := by
  have hfc := find_cliques_ne_nil G hne
  obtain ⟨c0, cs, hsplit⟩ := List.exists_cons_of_ne_nil hfc
  refine ⟨cs.foldl (fun best x => if x.length > best.length then x else best) c0,
    by rw [find_max_clique, hsplit], ?_⟩
  set S := cs.foldl (fun best x => if x.length > best.length then x else best) c0 with hSdef
  have hSmem : S ∈ find_cliques G := by
    rw [hsplit]
    exact foldl_pick_mem cs c0
  obtain ⟨hSmax, hSnodup, hSsub⟩ := find_cliques_sound G hSmem
  rw [isMaximalClique_iff] at hSmax
  refine ⟨forall_of_pairwiseAdj G hSmax.1, hSmax.2, ?_⟩
  intro c hcnodup hcsub hcadj hcmax
  have hcmaxb : isMaximalClique G c = true := by
    rw [isMaximalClique_iff]
    exact ⟨pairwiseAdj_of_forall G hcnodup hcadj, hcmax⟩
  obtain ⟨c', hc_mem, hc_len⟩ := find_cliques_complete G hcnodup hcsub hcmaxb hne
  have hle : c'.length ≤ S.length := by
    rw [hsplit] at hc_mem
    exact foldl_pick_ge cs c0 c' hc_mem
  omega

/-- Two disjoint triangles `{0,1,2}` and `{3,4,5}` joined by the bridge
edge `2-3`: the spec's example graph with unique maximum-clique size 3. -/
def twoTriangles : Graph where
  nodes := [0, 1, 2, 3, 4, 5]
  edges := [(0,1), (1,0), (0,2), (2,0), (1,2), (2,1),
            (3,4), (4,3), (3,5), (5,3), (4,5), (5,4), (2,3), (3,2)]
  nodes_sorted := by
    simp only [List.chain'_cons, List.chain'_singleton, and_true]
    omega
  edges_symm := by decide
  edges_irrefl := by decide
  edges_mem := by decide

/-- Witness for C6 on the two-triangles-plus-bridge graph: its node list
is nonempty, the claim instantiates there, and the returned maximum
clique has size 3. -/
theorem claim_C6_find_max_clique_witness :
    twoTriangles.nodes ≠ [] ∧
    (∃ S, find_max_clique twoTriangles = some S ∧
      (∀ a ∈ S, ∀ b ∈ S, a ≠ b → twoTriangles.adj a b = true) ∧
      (∀ x ∈ twoTriangles.nodes, x ∉ S →
        ¬(∀ y ∈ S, twoTriangles.adj x y = true)) ∧
      (∀ c : List Nat, c.Nodup → (∀ a ∈ c, a ∈ twoTriangles.nodes) →
        (∀ a ∈ c, ∀ b ∈ c, a ≠ b → twoTriangles.adj a b = true) →
        (∀ x ∈ twoTriangles.nodes, x ∉ c →
          ¬(∀ y ∈ c, twoTriangles.adj x y = true)) →
        c.length ≤ S.length)) ∧
    (find_max_clique twoTriangles).map List.length = some 3 :=
  ⟨by decide, claim_C6_find_max_clique twoTriangles (by decide), by decide⟩

/-! ## Breadth-first search (`bfs_with_depth` in `src/main.py`)

The Python loop pops `(node, depth)` from a FIFO deque, records it, and
enqueues each not-yet-visited neighbor (in ascending order) at
`depth + 1`, marking it visited at enqueue time.  Since the sorted
neighbor list has no duplicates, marking-as-you-go over one neighbor
list equals prefiltering the whole list against the visited set, which
is how the step is embedded.  The recursion is driven by fuel;
`bfs_with_depth` supplies enough fuel for the queue to drain. -/

def bfsAux (G : Graph) : Nat → List (Nat × Nat) → List Nat → List (Nat × Nat)
  | 0, _, _ => []
  | _+1, [], _ => []
  | fuel+1, (node, depth) :: rest, visited =>
    (node, depth) ::
      bfsAux G fuel
        (rest ++ ((neighbors G node).filter (fun m => decide (m ∉ visited))).map
          (fun m => (m, depth + 1)))
        (visited ++ (neighbors G node).filter (fun m => decide (m ∉ visited)))

/-- `bfs_with_depth(G, start)`: list of `(node, depth)` in visit order. -/
def bfs_with_depth (G : Graph) (start : Nat) : List (Nat × Nat) :=
  bfsAux G (G.nodes.length + 1) [(start, 0)] [start]

theorem dist_le_succ_of_adj (G : Graph) {s u v : Nat}
    (hr : (toSG G).Reachable s u) (hadj : (toSG G).Adj u v) :
    (toSG G).dist s v ≤ (toSG G).dist s u + 1 := by
  obtain ⟨w, hw⟩ := hr.exists_walk_length_eq_dist
  have h1 := SimpleGraph.dist_le (w.concat hadj)
  rw [SimpleGraph.Walk.length_concat, hw] at h1
  exact h1

theorem dist_pred (G : Graph) {s x : Nat} {D : Nat}
    (hr : (toSG G).Reachable s x) (hd : (toSG G).dist s x = D + 1) :
    ∃ y, (toSG G).Adj y x ∧ (toSG G).Reachable s y ∧ (toSG G).dist s y = D := by
  have hne : x ≠ s := by
    intro he
    rw [he, SimpleGraph.dist_self] at hd
    omega
  obtain ⟨w, hw⟩ := hr.exists_walk_length_eq_dist
  obtain ⟨y, hadj, p, hp⟩ := SimpleGraph.Walk.exists_eq_cons_of_ne hne w.reverse
  have hplen : p.length = D := by
    have := SimpleGraph.Walk.length_reverse w
    rw [hp] at this
    simp only [SimpleGraph.Walk.length_cons] at this
    omega
  have hry : (toSG G).Reachable s y := ⟨p.reverse⟩
  have hle : (toSG G).dist s y ≤ D := by
    have := SimpleGraph.dist_le p.reverse
    rw [SimpleGraph.Walk.length_reverse, hplen] at this
    exact this
  have hge : D ≤ (toSG G).dist s y := by
    have := dist_le_succ_of_adj G hry ((toSG G).symm hadj)
    omega
  exact ⟨y, (toSG G).symm hadj, hry, Nat.le_antisymm hle hge⟩

theorem closed_reach (G : Graph) {vis : List Nat}
    (hclosed : ∀ x ∈ vis, ∀ y, G.adj x y = true → y ∈ vis) :
    ∀ {u x : Nat}, u ∈ vis → (toSG G).Walk u x → x ∈ vis := by
  intro u x hu w
  induction w with
  | nil => exact hu
  | cons h _ ih => exact ih (hclosed _ hu _ h)

theorem count_split {vis new : List Nat} (hdisj : ∀ m ∈ new, m ∉ vis) :
    ∀ nodes : List Nat,
      (nodes.filter (fun x => decide (x ∉ vis))).length =
        (nodes.filter (fun x => decide (x ∉ vis ++ new))).length +
          (nodes.filter (fun x => decide (x ∈ new))).length := by
  intro nodes
  induction nodes with
  | nil => rfl
  | cons a t ih =>
    by_cases hanew : a ∈ new
    · have havis : a ∉ vis := hdisj a hanew
      rw [List.filter_cons_of_pos (by simpa using havis),
        List.filter_cons_of_neg (by simp [List.mem_append, hanew]),
        List.filter_cons_of_pos (by simpa using hanew)]
      simp only [List.length_cons]
      omega
    · by_cases havis : a ∈ vis
      · rw [List.filter_cons_of_neg (by simpa using havis),
          List.filter_cons_of_neg (by simp [List.mem_append, havis]),
          List.filter_cons_of_neg (by simpa using hanew)]
        exact ih
      · rw [List.filter_cons_of_pos (by simpa using havis),
          List.filter_cons_of_pos (by simp [List.mem_append, havis, hanew]),
          List.filter_cons_of_neg (by simpa using hanew)]
        simp only [List.length_cons]
        omega

theorem length_filter_mem {nodes new : List Nat} (hnodesd : nodes.Nodup)
    (hnewd : new.Nodup) (hsub : ∀ m ∈ new, m ∈ nodes) :
    (nodes.filter (fun x => decide (x ∈ new))).length = new.length := by
  have hperm : List.Perm (nodes.filter (fun x => decide (x ∈ new))) new := by
    refine (List.perm_ext_iff_of_nodup (hnodesd.filter _) hnewd).mpr ?_
    intro a
    simp only [List.mem_filter, decide_eq_true_eq]
    exact ⟨fun h => h.2, fun h => ⟨hsub a h, h⟩⟩
  exact hperm.length_eq

theorem unvisited_decrease (G : Graph) {vis new : List Nat}
    (hdisj : ∀ m ∈ new, m ∉ vis) (hnewd : new.Nodup)
    (hsub : ∀ m ∈ new, m ∈ G.nodes) :
    (G.nodes.filter (fun x => decide (x ∉ vis ++ new))).length + new.length =
      (G.nodes.filter (fun x => decide (x ∉ vis))).length := by
  rw [count_split hdisj G.nodes, length_filter_mem (nodes_nodup G) hnewd hsub]

theorem bfsAux_master (G : Graph) (s : Nat) :
    ∀ (fuel : Nat) (q : List (Nat × Nat)) (vis : List Nat),
      q.length + (G.nodes.filter (fun x => decide (x ∉ vis))).length ≤ fuel →
      s ∈ vis →
      (∀ p ∈ q, p.1 ∈ vis ∧ (toSG G).Reachable s p.1 ∧ (toSG G).dist s p.1 = p.2) →
      (q.map Prod.fst).Nodup →
      vis.Nodup →
      (∀ x ∈ vis, x ∈ G.nodes ∧ (toSG G).Reachable s x) →
      (∀ x ∈ vis, x ∉ q.map Prod.fst → ∀ y, G.adj x y = true → y ∈ vis) →
      (q = [] ∨ ∃ D a b, 1 ≤ a ∧
        q.map Prod.snd = List.replicate a D ++ List.replicate b (D+1) ∧
        (∀ x, (toSG G).Reachable s x → (toSG G).dist s x ≤ D → x ∈ vis)) →
      (q = [] → bfsAux G fuel q vis = []) ∧
      ((bfsAux G fuel q vis).map Prod.fst).Nodup ∧
      (∀ p ∈ bfsAux G fuel q vis, p.1 ∈ G.nodes ∧ (toSG G).Reachable s p.1 ∧
        (toSG G).dist s p.1 = p.2) ∧
      (∀ x ∈ (bfsAux G fuel q vis).map Prod.fst, x ∈ q.map Prod.fst ∨ x ∉ vis) ∧
      (∀ x, (toSG G).Reachable s x → (x ∈ q.map Prod.fst ∨ x ∉ vis) →
        x ∈ (bfsAux G fuel q vis).map Prod.fst) ∧
      List.Chain' (· ≤ ·) ((bfsAux G fuel q vis).map Prod.snd) ∧
      (∀ p0, q.head? = some p0 → ∀ d ∈ (bfsAux G fuel q vis).map Prod.snd, p0.2 ≤ d) := by
  intro fuel
  induction fuel with
  | zero =>
    intro q vis hfuel hsv hq hqnd hvnd hv hcl hD
    have hqnil : q = [] := by
      cases q with
      | nil => rfl
      | cons p t =>
        exfalso
        simp only [List.length_cons] at hfuel
        omega
    subst hqnil
    refine ⟨fun _ => rfl, by simp [bfsAux], by simp [bfsAux], by simp [bfsAux], ?_,
      by simp [bfsAux], by simp [bfsAux]⟩
    intro x hr hx
    rcases hx with hmem | hnv
    · simp at hmem
    · exfalso
      obtain ⟨w⟩ := hr
      exact hnv (closed_reach G (fun z hz y hy => hcl z hz (by simp) y hy) hsv w)
  | succ f ih =>
    intro q vis hfuel hsv hq hqnd hvnd hv hcl hD
    cases q with
    | nil =>
      refine ⟨fun _ => rfl, by simp [bfsAux], by simp [bfsAux], by simp [bfsAux], ?_,
        by simp [bfsAux], by simp [bfsAux]⟩
      intro x hr hx
      rcases hx with hmem | hnv
      · simp at hmem
      · exfalso
        obtain ⟨w⟩ := hr
        exact hnv (closed_reach G (fun z hz y hy => hcl z hz (by simp) y hy) hsv w)
    | cons p rest =>
      obtain ⟨node, depth⟩ := p
      rcases hD with hqnil | ⟨D, a, b, ha, hsnd, hvisD⟩
      · exact absurd hqnil (by simp)
      obtain ⟨a', rfl⟩ : ∃ a', a = a' + 1 := ⟨a - 1, by omega⟩
      rw [List.replicate_succ] at hsnd
      simp only [List.map_cons, List.cons_append] at hsnd
      have hdD : depth = D := (List.cons.injEq _ _ _ _ ▸ hsnd).1
      have hrest_snd : rest.map Prod.snd =
          List.replicate a' D ++ List.replicate b (D+1) :=
        (List.cons.injEq _ _ _ _ ▸ hsnd).2
      rw [show bfsAux G (f+1) ((node, depth) :: rest) vis =
            (node, depth) :: bfsAux G f
              (rest ++ ((neighbors G node).filter
                (fun m => decide (m ∉ vis))).map (fun m => (m, depth + 1)))
              (vis ++ (neighbors G node).filter (fun m => decide (m ∉ vis)))
          from rfl]
      set new := (neighbors G node).filter (fun m => decide (m ∉ vis)) with hnewdef
      set q' := rest ++ new.map (fun m => (m, depth + 1)) with hq_def
      set vis' := vis ++ new with hvis_def
      obtain ⟨hnodevis, hnoder, hnoded⟩ := hq (node, depth) (List.mem_cons_self _ _)
      have hnewdisj : ∀ m ∈ new, m ∉ vis := by
        intro m hm
        have := (List.mem_filter.mp hm).2
        simpa using this
      have hnewnodup : new.Nodup := (neighbors_nodup G node).filter _
      have hnewsub : ∀ m ∈ new, m ∈ G.nodes := fun m hm =>
        neighbors_subset_nodes G node m (List.mem_filter.mp hm).1
      have hnewadj : ∀ m ∈ new, G.adj node m = true := fun m hm =>
        (mem_neighbors G).mp (List.mem_filter.mp hm).1
      have hq_fst : q'.map Prod.fst = rest.map Prod.fst ++ new := by
        rw [hq_def]
        simp [List.map_map, Function.comp_def]
      have hq_snd : q'.map Prod.snd =
          rest.map Prod.snd ++ List.replicate new.length (depth+1) := by
        rw [hq_def]
        simp [List.map_map, Function.comp_def, List.map_const']
      have hfuel' : q'.length +
          (G.nodes.filter (fun x => decide (x ∉ vis'))).length ≤ f := by
        have hdec := unvisited_decrease G hnewdisj hnewnodup hnewsub
        rw [hq_def, hvis_def]
        simp only [List.length_append, List.length_map, List.length_cons] at *
        omega
      have hsv' : s ∈ vis' := by
        rw [hvis_def]
        exact List.mem_append.mpr (Or.inl hsv)
      have hreach_new : ∀ m ∈ new, (toSG G).Reachable s m := by
        intro m hm
        exact hnoder.trans (SimpleGraph.Adj.reachable (hnewadj m hm))
      have hdist_new : ∀ m ∈ new, (toSG G).dist s m = depth + 1 := by
        intro m hm
        have hle := dist_le_succ_of_adj G hnoder (hnewadj m hm)
        rw [hnoded] at hle
        have hge : ¬ ((toSG G).dist s m ≤ D) := by
          intro hcon
          exact hnewdisj m hm (hvisD m (hreach_new m hm) hcon)
        omega
      have hq_mem : ∀ p ∈ q', p.1 ∈ vis' ∧ (toSG G).Reachable s p.1 ∧
          (toSG G).dist s p.1 = p.2 := by
        intro p hp
        rw [hq_def] at hp
        rcases List.mem_append.mp hp with hrest | hnew
        · have h2 := hq p (List.mem_cons_of_mem _ hrest)
          refine ⟨?_, h2.2.1, h2.2.2⟩
          rw [hvis_def]
          exact List.mem_append.mpr (Or.inl h2.1)
        · obtain ⟨m, hm, rfl⟩ := List.mem_map.mp hnew
          refine ⟨?_, hreach_new m hm, hdist_new m hm⟩
          rw [hvis_def]
          exact List.mem_append.mpr (Or.inr hm)
      have hqnd2 : node ∉ rest.map Prod.fst ∧ (rest.map Prod.fst).Nodup := by
        simp only [List.map_cons] at hqnd
        exact List.nodup_cons.mp hqnd
      have hqnd' : (q'.map Prod.fst).Nodup := by
        rw [hq_fst]
        refine hqnd2.2.append hnewnodup ?_
        intro x hx1 hx2
        obtain ⟨p, hp, hpx⟩ := List.mem_map.mp hx1
        have := (hq p (List.mem_cons_of_mem _ hp)).1
        rw [hpx] at this
        exact hnewdisj x hx2 this
      have hvnd' : vis'.Nodup := by
        rw [hvis_def]
        exact hvnd.append hnewnodup (fun a ha2 hb2 => hnewdisj a hb2 ha2)
      have hv' : ∀ x ∈ vis', x ∈ G.nodes ∧ (toSG G).Reachable s x := by
        intro x hx
        rw [hvis_def] at hx
        rcases List.mem_append.mp hx with h1 | h2
        · exact hv x h1
        · exact ⟨hnewsub x h2, hreach_new x h2⟩
      have hnodeq' : node ∉ q'.map Prod.fst := by
        rw [hq_fst]
        intro hcon
        rcases List.mem_append.mp hcon with h1 | h2
        · exact hqnd2.1 h1
        · exact hnewdisj node h2 hnodevis
      have hcl' : ∀ x ∈ vis', x ∉ q'.map Prod.fst →
          ∀ y, G.adj x y = true → y ∈ vis' := by
        intro x hx hxq y hy
        rw [hvis_def] at hx
        rcases List.mem_append.mp hx with hxv | hxn
        · by_cases hxnode : x = node
          · subst hxnode
            have hyn : y ∈ neighbors G x := (mem_neighbors G).mpr hy
            by_cases hyvis : y ∈ vis
            · rw [hvis_def]
              exact List.mem_append.mpr (Or.inl hyvis)
            · rw [hvis_def]
              refine List.mem_append.mpr (Or.inr ?_)
              rw [hnewdef]
              exact List.mem_filter.mpr ⟨hyn, by simpa using hyvis⟩
          · have hxrest : x ∉ rest.map Prod.fst := by
              intro hcon
              exact hxq (by rw [hq_fst]; exact List.mem_append.mpr (Or.inl hcon))
            have hxqfst : x ∉ ((node, depth) :: rest).map Prod.fst := by
              simp only [List.map_cons, List.mem_cons]
              push_neg
              exact ⟨hxnode, hxrest⟩
            have := hcl x hxv hxqfst y hy
            rw [hvis_def]
            exact List.mem_append.mpr (Or.inl this)
        · exfalso
          exact hxq (by rw [hq_fst]; exact List.mem_append.mpr (Or.inr hxn))
      have hq_depth : ∀ p ∈ q', depth ≤ p.2 := by
        intro p hp
        rw [hq_def] at hp
        rcases List.mem_append.mp hp with h1 | h2
        · have hpd : p.2 ∈ rest.map Prod.snd := List.mem_map_of_mem _ h1
          rw [hrest_snd] at hpd
          rcases List.mem_append.mp hpd with h3 | h3
          · have := (List.mem_replicate.mp h3).2
            omega
          · have := (List.mem_replicate.mp h3).2
            omega
        · obtain ⟨m, _, rfl⟩ := List.mem_map.mp h2
          omega
      have hD' : q' = [] ∨ ∃ D2 a2 b2, 1 ≤ a2 ∧
          q'.map Prod.snd = List.replicate a2 D2 ++ List.replicate b2 (D2+1) ∧
          (∀ x, (toSG G).Reachable s x → (toSG G).dist s x ≤ D2 → x ∈ vis') := by
        by_cases hq_nil : q' = []
        · exact Or.inl hq_nil
        · right
          cases a' with
          | succ a'' =>
            refine ⟨D, a'' + 1, b + new.length, by omega, ?_, ?_⟩
            · rw [hq_snd, hrest_snd, hdD, List.append_assoc, ← List.replicate_add]
            · intro x hr hle
              rw [hvis_def]
              exact List.mem_append.mpr (Or.inl (hvisD x hr hle))
          | zero =>
            have hrest_snd0 : rest.map Prod.snd = List.replicate b (D+1) := by
              simpa using hrest_snd
            have hrestlen : rest.length = b := by
              have := congrArg List.length hrest_snd0
              simpa using this
            have hq_len : q'.length = b + new.length := by
              rw [hq_def]
              simp only [List.length_append, List.length_map]
              omega
            refine ⟨D + 1, b + new.length, 0, ?_, ?_, ?_⟩
            · have : q'.length ≠ 0 := by
                simpa [List.length_eq_zero] using hq_nil
              omega
            · rw [hq_snd, hrest_snd0, hdD, ← List.replicate_add]
              simp
            · intro x hr hle
              rcases Nat.lt_or_ge ((toSG G).dist s x) (D+1) with hlt | hge
              · rw [hvis_def]
                exact List.mem_append.mpr (Or.inl (hvisD x hr (by omega)))
              · have hdx : (toSG G).dist s x = D + 1 := by omega
                obtain ⟨y, hyadj, hyr, hyd⟩ := dist_pred G hr hdx
                have hyvis : y ∈ vis := hvisD y hyr (by omega)
                have hyq' : y ∉ q'.map Prod.fst := by
                  rw [hq_fst]
                  intro hcon
                  rcases List.mem_append.mp hcon with h1 | h2
                  · obtain ⟨p2, hp2, hp2y⟩ := List.mem_map.mp h1
                    have hdd := (hq p2 (List.mem_cons_of_mem _ hp2)).2.2
                    have hpd : p2.2 ∈ rest.map Prod.snd := List.mem_map_of_mem _ hp2
                    rw [hrest_snd0] at hpd
                    have := (List.mem_replicate.mp hpd).2
                    rw [hp2y] at hdd
                    omega
                  · exact hnewdisj y h2 hyvis
                exact hcl' y (by rw [hvis_def]; exact List.mem_append.mpr (Or.inl hyvis))
                  hyq' x hyadj
      obtain ⟨ih0, ih1, ih2, ih3, ih4, ih5, ih6⟩ :=
        ih q' vis' hfuel' hsv' hq_mem hqnd' hvnd' hv' hcl' hD'
      have hnodout : node ∉ (bfsAux G f q' vis').map Prod.fst := by
        intro hcon
        rcases ih3 node hcon with h1 | h2
        · exact hnodeq' h1
        · exact h2 (by rw [hvis_def]; exact List.mem_append.mpr (Or.inl hnodevis))
      refine ⟨?_, ?_, ?_, ?_, ?_, ?_, ?_⟩
      · intro hcon
        simp at hcon
      · simp only [List.map_cons]
        exact List.nodup_cons.mpr ⟨hnodout, ih1⟩
      · intro p hp
        rcases List.mem_cons.mp hp with he | ht
        · rw [he]
          exact ⟨(hv node hnodevis).1, hnoder, hnoded⟩
        · exact ih2 p ht
      · intro x hx
        simp only [List.map_cons, List.mem_cons] at hx
        rcases hx with he | ht
        · left
          simp [he]
        · rcases ih3 x ht with h1 | h2
          · rw [hq_fst] at h1
            rcases List.mem_append.mp h1 with h3 | h3
            · left
              simp only [List.map_cons, List.mem_cons]
              exact Or.inr h3
            · right
              exact hnewdisj x h3
          · right
            intro hcon
            exact h2 (by rw [hvis_def]; exact List.mem_append.mpr (Or.inl hcon))
      · intro x hr hx
        simp only [List.map_cons, List.mem_cons]
        by_cases hxnode : x = node
        · exact Or.inl hxnode
        · right
          apply ih4 x hr
          rcases hx with hq1 | hnv
          · have hxrest : x ∈ rest.map Prod.fst := by
              simp only [List.map_cons, List.mem_cons] at hq1
              exact hq1.resolve_left hxnode
            exact Or.inl (by rw [hq_fst]; exact List.mem_append.mpr (Or.inl hxrest))
          · by_cases hxnew : x ∈ new
            · exact Or.inl (by rw [hq_fst]; exact List.mem_append.mpr (Or.inr hxnew))
            · refine Or.inr ?_
              rw [hvis_def]
              intro hcon
              rcases List.mem_append.mp hcon with h1 | h2
              · exact hnv h1
              · exact hxnew h2
      · simp only [List.map_cons]
        rw [List.chain'_cons']
        refine ⟨?_, ih5⟩
        intro h hh
        rcases hq_c : q' with _ | ⟨p0, rest'⟩
        · rw [ih0 hq_c] at hh
          simp at hh
        · have hd := ih6 p0 (by rw [hq_c]; rfl)
          have hmem : h ∈ (bfsAux G f q' vis').map Prod.snd :=
            List.mem_of_mem_head? hh
          have h1 := hd h hmem
          have h2 : depth ≤ p0.2 := hq_depth p0 (by rw [hq_c]; exact List.mem_cons_self _ _)
          omega
      · intro p0 hp0 d hd
        have hp0e : p0 = (node, depth) := by
          have := hp0
          simp only [List.head?] at this
          exact (Option.some.inj this).symm
        subst hp0e
        simp only [List.map_cons, List.mem_cons] at hd
        rcases hd with he | ht
        · omega
        · rcases hq_c : q' with _ | ⟨p1, rest'⟩
          · rw [ih0 hq_c] at ht
            simp at ht
          · have h1 := ih6 p1 (by rw [hq_c]; rfl) d ht
            have h2 : depth ≤ p1.2 := hq_depth p1 (by rw [hq_c]; exact List.mem_cons_self _ _)
            simp only at h1 h2 ⊢
            omega

/-- The facts established by one top-level run of `bfs_with_depth`. -/
theorem bfs_run_facts (G : Graph) (s : Nat) (hs : s ∈ G.nodes) :
    ((bfs_with_depth G s).map Prod.fst).Nodup ∧
    (∀ p ∈ bfs_with_depth G s, p.1 ∈ G.nodes ∧ (toSG G).Reachable s p.1 ∧
      (toSG G).dist s p.1 = p.2) ∧
    (∀ x, (toSG G).Reachable s x → x ∈ (bfs_with_depth G s).map Prod.fst) ∧
    (bfs_with_depth G s).head? = some (s, 0) ∧
    List.Chain' (· ≤ ·) ((bfs_with_depth G s).map Prod.snd) ∧
    (∀ v, List.Chain' (· < ·) (neighbors G v)) := by
  have hmaster := bfsAux_master G s (G.nodes.length + 1) [(s, 0)] [s]
    (by
      have := List.length_filter_le (fun x => decide (x ∉ [s])) G.nodes
      simp only [List.length_cons, List.length_nil]
      omega)
    (by simp)
    (by
      intro p hp
      simp only [List.mem_singleton] at hp
      subst hp
      exact ⟨by simp, SimpleGraph.Reachable.refl s, SimpleGraph.dist_self⟩)
    (by simp)
    (by simp)
    (by
      intro x hx
      simp only [List.mem_singleton] at hx
      subst hx
      exact ⟨hs, SimpleGraph.Reachable.refl x⟩)
    (by
      intro x hx hxq
      exfalso
      simp only [List.mem_singleton] at hx
      subst hx
      simp at hxq)
    (Or.inr ⟨0, 1, 0, Nat.le_refl 1, by simp, by
      intro x hr hle
      have hd0 : (toSG G).dist s x = 0 := Nat.le_zero.mp hle
      have := hr.dist_eq_zero_iff.mp hd0
      simp [← this]⟩)
  obtain ⟨_, m1, m2, _, m4, m5, m6⟩ := hmaster
  refine ⟨m1, m2, ?_, rfl, m5, neighbors_sorted G⟩
  intro x hr
  apply m4 x hr
  by_cases hxs : x = s
  · left
    simp [hxs]
  · right
    simpa using hxs

/-- C1: `bfs_with_depth(G, s)` lists every node reachable from `s`
exactly once (nodes are pairwise distinct and every reachable node
appears), starting with `(s, 0)`; unreachable nodes are absent and
every listed node is reachable with its recorded depth equal to the
shortest-path distance from `s`; depths are non-decreasing along the
sequence; and the neighbor lists expanded at each step are in ascending
node-identity order (the function of `(G, s)` is deterministic). -/
theorem claim_C1_bfs_with_depth (G : Graph) (s : Nat) (hs : s ∈ G.nodes) :
    ((bfs_with_depth G s).map Prod.fst).Nodup ∧
    (∀ p ∈ bfs_with_depth G s, p.1 ∈ G.nodes ∧ (toSG G).Reachable s p.1 ∧
      (toSG G).dist s p.1 = p.2) ∧
    (∀ x, (toSG G).Reachable s x → x ∈ (bfs_with_depth G s).map Prod.fst) ∧
    (bfs_with_depth G s).head? = some (s, 0) ∧
    List.Chain' (· ≤ ·) ((bfs_with_depth G s).map Prod.snd) ∧
    (∀ v, List.Chain' (· < ·) (neighbors G v)) :=
  bfs_run_facts G s hs

/-- Witness for C1: on the 4-cycle from start 0 the traversal evaluates
to `[(0,0), (1,1), (3,1), (2,2)]` and the claim instantiates there. -/
theorem claim_C1_bfs_with_depth_witness :
    (0 ∈ cycle4.nodes) ∧
    bfs_with_depth cycle4 0 = [(0,0), (1,1), (3,1), (2,2)] ∧
    (((bfs_with_depth cycle4 0).map Prod.fst).Nodup ∧
      (∀ p ∈ bfs_with_depth cycle4 0, p.1 ∈ cycle4.nodes ∧
        (toSG cycle4).Reachable 0 p.1 ∧ (toSG cycle4).dist 0 p.1 = p.2) ∧
      (∀ x, (toSG cycle4).Reachable 0 x →
        x ∈ (bfs_with_depth cycle4 0).map Prod.fst) ∧
      (bfs_with_depth cycle4 0).head? = some (0, 0) ∧
      List.Chain' (· ≤ ·) ((bfs_with_depth cycle4 0).map Prod.snd) ∧
      (∀ v, List.Chain' (· < ·) (neighbors cycle4 v))) :=
  ⟨by decide, by decide, claim_C1_bfs_with_depth cycle4 0 (by decide)⟩

/-! ## Depth-first search (`dfs_with_depth` in `src/main.py`)

The recursive `dfs_rec(node, depth)` marks `node` visited, appends
`(node, depth)` to the order, and recurses into each not-yet-visited
neighbor in ascending order at `depth + 1`.  The shared `visited` set
and `order` list are threaded as a state pair; the visited set is a
list in discovery order (newest first), recursion is fuel-bounded. -/

def dfsVisit (G : Graph) :
    Nat → Nat → Nat → List Nat × List (Nat × Nat) → List Nat × List (Nat × Nat)
  | 0, _, _, st => st
  | fuel+1, node, depth, st =>
    (neighbors G node).foldl
      (fun st2 nbr => if nbr ∈ st2.1 then st2 else dfsVisit G fuel nbr (depth+1) st2)
      (node :: st.1, st.2 ++ [(node, depth)])

/-- `dfs_with_depth(G, start)`: list of `(node, depth)` in visit order. -/
def dfs_with_depth (G : Graph) (start : Nat) : List (Nat × Nat) :=
  (dfsVisit G (G.nodes.length + 1) start 0 ([], [])).2

theorem filter_length_mono {p q : Nat → Bool} (h : ∀ x, p x = true → q x = true) :
    ∀ l : List Nat, (l.filter p).length ≤ (l.filter q).length := by
  intro l
  induction l with
  | nil => exact Nat.le_refl 0
  | cons a t ih =>
    by_cases hp : p a = true
    · rw [List.filter_cons_of_pos hp, List.filter_cons_of_pos (h a hp)]
      simpa using ih
    · rw [List.filter_cons_of_neg (by simpa using hp)]
      by_cases hq : q a = true
      · rw [List.filter_cons_of_pos hq]
        exact Nat.le_trans ih (Nat.le_succ _)
      · rw [List.filter_cons_of_neg (by simpa using hq)]
        exact ih

theorem unvisited_cons (G : Graph) {node : Nat} {vis : List Nat}
    (hn : node ∈ G.nodes) (hnv : node ∉ vis) :
    (G.nodes.filter (fun x => decide (x ∉ node :: vis))).length + 1 =
      (G.nodes.filter (fun x => decide (x ∉ vis))).length := by
  have hsplit := @count_split vis [node]
    (by intro m hm; simp only [List.mem_singleton] at hm; exact hm ▸ hnv) G.nodes
  have hone : (G.nodes.filter (fun x => decide (x ∈ [node]))).length = 1 := by
    have := @length_filter_mem G.nodes [node] (nodes_nodup G)
      (by simp) (by intro m hm; simp only [List.mem_singleton] at hm; exact hm ▸ hn)
    simpa using this
  have hcongr : G.nodes.filter (fun x => decide (x ∉ vis ++ [node])) =
      G.nodes.filter (fun x => decide (x ∉ node :: vis)) := by
    apply List.filter_congr
    intro x _
    simp only [decide_eq_decide, List.mem_append, List.mem_singleton, List.mem_cons]
    tauto
  rw [hcongr, hone] at hsplit
  omega

theorem dfsVisit_master (G : Graph) :
    ∀ (fuel : Nat) (node depth : Nat) (vis : List Nat) (ord : List (Nat × Nat)),
      (G.nodes.filter (fun x => decide (x ∉ vis))).length ≤ fuel →
      node ∈ G.nodes → node ∉ vis → vis.Nodup →
      ∃ seg,
        (dfsVisit G fuel node depth (vis, ord)).2 = ord ++ seg ∧
        (dfsVisit G fuel node depth (vis, ord)).1 = (seg.map Prod.fst).reverse ++ vis ∧
        seg.head? = some (node, depth) ∧
        (∀ x ∈ seg.map Prod.fst, (toSG G).Reachable node x ∧ x ∈ G.nodes) ∧
        (∀ x ∈ seg.map Prod.fst, ∀ y, G.adj x y = true →
          y ∈ (dfsVisit G fuel node depth (vis, ord)).1) ∧
        (dfsVisit G fuel node depth (vis, ord)).1.Nodup := by
  intro fuel
  induction fuel with
  | zero =>
    intro node depth vis ord hfuel hn hnv hvnd
    exfalso
    have hmem : node ∈ G.nodes.filter (fun x => decide (x ∉ vis)) :=
      List.mem_filter.mpr ⟨hn, by simpa using hnv⟩
    have := List.length_pos.mpr (List.ne_nil_of_mem hmem)
    omega
  | succ f ih =>
    intro node depth vis ord hfuel hn hnv hvnd
    have hfold : ∀ (L : List Nat), (∀ m ∈ L, m ∈ neighbors G node) →
        ∀ (st2 : List Nat × List (Nat × Nat)),
        (∃ seg, st2.2 = ord ++ seg ∧
          st2.1 = (seg.map Prod.fst).reverse ++ vis ∧
          seg.head? = some (node, depth) ∧
          (∀ x ∈ seg.map Prod.fst, (toSG G).Reachable node x ∧ x ∈ G.nodes) ∧
          (∀ x ∈ seg.map Prod.fst, x ≠ node → ∀ y, G.adj x y = true → y ∈ st2.1) ∧
          st2.1.Nodup) →
        (∃ seg,
          (L.foldl (fun st2 nbr => if nbr ∈ st2.1 then st2
            else dfsVisit G f nbr (depth+1) st2) st2).2 = ord ++ seg ∧
          (L.foldl (fun st2 nbr => if nbr ∈ st2.1 then st2
            else dfsVisit G f nbr (depth+1) st2) st2).1 =
              (seg.map Prod.fst).reverse ++ vis ∧
          seg.head? = some (node, depth) ∧
          (∀ x ∈ seg.map Prod.fst, (toSG G).Reachable node x ∧ x ∈ G.nodes) ∧
          (∀ x ∈ seg.map Prod.fst, x ≠ node → ∀ y, G.adj x y = true →
            y ∈ (L.foldl (fun st2 nbr => if nbr ∈ st2.1 then st2
              else dfsVisit G f nbr (depth+1) st2) st2).1) ∧
          (L.foldl (fun st2 nbr => if nbr ∈ st2.1 then st2
            else dfsVisit G f nbr (depth+1) st2) st2).1.Nodup) ∧
        (∀ y ∈ L, y ∈ (L.foldl (fun st2 nbr => if nbr ∈ st2.1 then st2
          else dfsVisit G f nbr (depth+1) st2) st2).1) ∧
        (∀ z ∈ st2.1, z ∈ (L.foldl (fun st2 nbr => if nbr ∈ st2.1 then st2
          else dfsVisit G f nbr (depth+1) st2) st2).1) := by
      intro L
      induction L with
      | nil =>
        intro _ st2 hinv
        refine ⟨hinv, ?_, ?_⟩
        · intro y hy
          simp at hy
        · intro z hz
          exact hz
      | cons nbr L2 ihL =>
        intro hLmem st2 hinv
        obtain ⟨seg, hseg2, hseg1, hsegh, hsegr, hsegc, hsegn⟩ := hinv
        have hnbrmem : nbr ∈ neighbors G node := hLmem nbr (List.mem_cons_self _ _)
        have hL2mem : ∀ m ∈ L2, m ∈ neighbors G node :=
          fun m hm => hLmem m (List.mem_cons_of_mem _ hm)
        obtain ⟨segtail, rfl⟩ : ∃ t, seg = (node, depth) :: t := by
          cases seg with
          | nil => simp at hsegh
          | cons p t =>
            simp only [List.head?] at hsegh
            exact ⟨t, by rw [Option.some.inj hsegh]⟩
        have hnodest2 : node ∈ st2.1 := by
          rw [hseg1]
          apply List.mem_append.mpr
          left
          rw [List.mem_reverse]
          simp
        have hvisst2 : ∀ z ∈ vis, z ∈ st2.1 := by
          intro z hz
          rw [hseg1]
          exact List.mem_append.mpr (Or.inr hz)
        simp only [List.foldl_cons]
        by_cases hin : nbr ∈ st2.1
        · rw [if_pos hin]
          obtain ⟨hfin, hproc, hmono⟩ := ihL hL2mem st2
            ⟨(node, depth) :: segtail, hseg2, hseg1, rfl, hsegr, hsegc, hsegn⟩
          refine ⟨hfin, ?_, hmono⟩
          intro y hy
          rcases List.mem_cons.mp hy with he | ht
          · exact he ▸ hmono nbr hin
          · exact hproc y ht
        · rw [if_neg hin]
          have hnbrnodes : nbr ∈ G.nodes := neighbors_subset_nodes G node nbr hnbrmem
          have hnbradj : G.adj node nbr = true := (mem_neighbors G).mp hnbrmem
          have hfuel2 : (G.nodes.filter (fun x => decide (x ∉ st2.1))).length ≤ f := by
            have hmono2 : ∀ x, decide (x ∉ st2.1) = true →
                decide (x ∉ node :: vis) = true := by
              intro x hx
              simp only [decide_eq_true_eq] at hx ⊢
              intro hcon
              rcases List.mem_cons.mp hcon with he | hm
              · exact hx (he ▸ hnodest2)
              · exact hx (hvisst2 x hm)
            have h1 := filter_length_mono hmono2 G.nodes
            have h2 := unvisited_cons G hn hnv
            omega
          obtain ⟨seg3, hs32, hs31, hs3h, hs3r, hs3c, hs3n⟩ :=
            ih nbr (depth+1) st2.1 st2.2 hfuel2 hnbrnodes hin hsegn
          simp only [Prod.mk.eta] at hs32 hs31 hs3c hs3n
          set st3 := dfsVisit G f nbr (depth+1) st2 with hst3def
          have hst2sub : ∀ z ∈ st2.1, z ∈ st3.1 := by
            intro z hz
            rw [hs31]
            exact List.mem_append.mpr (Or.inr hz)
          have hinv3 : ∃ seg4, st3.2 = ord ++ seg4 ∧
              st3.1 = (seg4.map Prod.fst).reverse ++ vis ∧
              seg4.head? = some (node, depth) ∧
              (∀ x ∈ seg4.map Prod.fst, (toSG G).Reachable node x ∧ x ∈ G.nodes) ∧
              (∀ x ∈ seg4.map Prod.fst, x ≠ node → ∀ y, G.adj x y = true →
                y ∈ st3.1) ∧
              st3.1.Nodup := by
            refine ⟨((node, depth) :: segtail) ++ seg3, ?_, ?_, rfl, ?_, ?_, hs3n⟩
            · rw [hs32, hseg2, List.append_assoc]
            · rw [hs31, hseg1, List.map_append, List.reverse_append,
                List.append_assoc]
            · intro x hx
              rw [List.map_append] at hx
              rcases List.mem_append.mp hx with h1 | h2
              · exact hsegr x h1
              · obtain ⟨hr3, hn3⟩ := hs3r x h2
                exact ⟨(SimpleGraph.Adj.reachable hnbradj).trans hr3, hn3⟩
            · intro x hx hxne y hy
              rw [List.map_append] at hx
              rcases List.mem_append.mp hx with h1 | h2
              · exact hst2sub y (hsegc x h1 hxne y hy)
              · exact hs3c x h2 y hy
          obtain ⟨hfin, hproc, hmono⟩ := ihL hL2mem st3 hinv3
          refine ⟨hfin, ?_, fun z hz => hmono z (hst2sub z hz)⟩
          intro y hy
          rcases List.mem_cons.mp hy with he | ht
          · subst he
            apply hmono
            rw [hs31]
            apply List.mem_append.mpr
            left
            rw [List.mem_reverse]
            cases seg3 with
            | nil => simp at hs3h
            | cons p3 t3 =>
              simp only [List.head?] at hs3h
              rw [Option.some.inj hs3h]
              simp
          · exact hproc y ht
    rw [show dfsVisit G (f+1) node depth (vis, ord) =
          (neighbors G node).foldl
            (fun st2 nbr => if nbr ∈ st2.1 then st2
              else dfsVisit G f nbr (depth+1) st2)
            (node :: vis, ord ++ [(node, depth)]) from rfl]
    obtain ⟨⟨seg, h2, h1, hh, hr, hc, hnd⟩, hproc, _⟩ :=
      hfold (neighbors G node) (fun m hm => hm) (node :: vis, ord ++ [(node, depth)])
        ⟨[(node, depth)], rfl, by simp, rfl,
          by
            intro x hx
            simp only [List.map_cons, List.map_nil, List.mem_singleton] at hx
            rw [hx]
            exact ⟨SimpleGraph.Reachable.refl node, hn⟩,
          by
            intro x hx hxne
            simp only [List.map_cons, List.map_nil, List.mem_singleton] at hx
            exact absurd hx hxne,
          by simp [hnv, hvnd]⟩
    refine ⟨seg, h2, h1, hh, hr, ?_, hnd⟩
    intro x hx y hy
    by_cases hxnode : x = node
    · subst hxnode
      exact hproc y ((mem_neighbors G).mpr hy)
    · exact hc x hx hxnode y hy

/-- The facts established by one top-level run of `dfs_with_depth`. -/
theorem dfs_run_facts (G : Graph) (s : Nat) (hs : s ∈ G.nodes) :
    ((dfs_with_depth G s).map Prod.fst).Nodup ∧
    (∀ x, x ∈ (dfs_with_depth G s).map Prod.fst ↔ (toSG G).Reachable s x) ∧
    (dfs_with_depth G s).head? = some (s, 0) := by
  obtain ⟨seg, h2, h1, hh, hr, hc, hnd⟩ := dfsVisit_master G (G.nodes.length + 1)
    s 0 [] []
    (by
      have := List.length_filter_le (fun x => decide (x ∉ ([] : List Nat))) G.nodes
      omega)
    hs (by simp) List.nodup_nil
  have hdfseq : dfs_with_depth G s = seg := by
    rw [dfs_with_depth, h2]
    simp
  have hvf : (dfsVisit G (G.nodes.length + 1) s 0 ([], [])).1 =
      (seg.map Prod.fst).reverse := by
    rw [h1]
    simp
  have hsin : s ∈ seg.map Prod.fst := by
    cases seg with
    | nil => simp at hh
    | cons p t =>
      simp only [List.head?] at hh
      rw [Option.some.inj hh]
      simp
  refine ⟨?_, ?_, ?_⟩
  · rw [hdfseq]
    have := hnd
    rw [hvf] at this
    exact List.nodup_reverse.mp this
  · intro x
    rw [hdfseq]
    constructor
    · intro hx
      exact (hr x hx).1
    · intro hx
      obtain ⟨w⟩ := hx
      have hclosed : ∀ z ∈ (seg.map Prod.fst).reverse, ∀ y,
          G.adj z y = true → y ∈ (seg.map Prod.fst).reverse := by
        intro z hz y hy
        rw [List.mem_reverse] at hz
        have := hc z hz y hy
        rw [hvf] at this
        exact this
      have := closed_reach G hclosed (by rw [List.mem_reverse]; exact hsin) w
      rw [List.mem_reverse] at this
      exact this
  · rw [hdfseq]
    exact hh

/-- C7: `dfs_with_depth(G, s)` visits each node exactly once, starting
with `(s, 0)`; the set of visited nodes is exactly the set of nodes
reachable from `s` and equals the set visited by `bfs_with_depth(G, s)`;
neighbors are expanded in ascending identity order (the function of
`(G, s)` is deterministic, and each recorded depth is the recursion
depth argument at the discovering call). -/
theorem claim_C7_dfs_with_depth (G : Graph) (s : Nat) (hs : s ∈ G.nodes) :
    ((dfs_with_depth G s).map Prod.fst).Nodup ∧
    (∀ x, x ∈ (dfs_with_depth G s).map Prod.fst ↔ (toSG G).Reachable s x) ∧
    (dfs_with_depth G s).head? = some (s, 0) ∧
    (∀ v, List.Chain' (· < ·) (neighbors G v)) ∧
    (∀ x, x ∈ (dfs_with_depth G s).map Prod.fst ↔
      x ∈ (bfs_with_depth G s).map Prod.fst) := by
  obtain ⟨d1, d2, d3⟩ := dfs_run_facts G s hs
  obtain ⟨_, b2, b3, _, _, _⟩ := bfs_run_facts G s hs
  refine ⟨d1, d2, d3, neighbors_sorted G, ?_⟩
  intro x
  rw [d2 x]
  constructor
  · exact b3 x
  · intro hx
    obtain ⟨p, hp, hpx⟩ := List.mem_map.mp hx
    rw [← hpx]
    exact (b2 p hp).2.1

/-- Witness for C7: on the 4-cycle from start 0 the DFS evaluates to
`[(0,0), (1,1), (2,2), (3,3)]` and the claim instantiates there. -/
theorem claim_C7_dfs_with_depth_witness :
    (0 ∈ cycle4.nodes) ∧
    dfs_with_depth cycle4 0 = [(0,0), (1,1), (2,2), (3,3)] ∧
    (((dfs_with_depth cycle4 0).map Prod.fst).Nodup ∧
      (∀ x, x ∈ (dfs_with_depth cycle4 0).map Prod.fst ↔
        (toSG cycle4).Reachable 0 x) ∧
      (dfs_with_depth cycle4 0).head? = some (0, 0) ∧
      (∀ v, List.Chain' (· < ·) (neighbors cycle4 v)) ∧
      (∀ x, x ∈ (dfs_with_depth cycle4 0).map Prod.fst ↔
        x ∈ (bfs_with_depth cycle4 0).map Prod.fst)) :=
  ⟨by decide, by decide, claim_C7_dfs_with_depth cycle4 0 (by decide)⟩

/-! ## Cycle detection (`has_cycle` in `src/main.py`)

`dfs_cycle(v, parent)` adds `v` to the shared `visited` and `rec_stack`
sets, scans the neighbors of `v`, recursing into unvisited ones and
reporting a cycle when a visited neighbor is on the recursion stack and
is not the immediate parent; it removes `v` from the stack before
returning `False`.  The shared `visited` set is threaded through (as a
list); `rec_stack` is passed down — a subcall that returns `False`
restores the stack it was given, so within one neighbor loop the stack
is constantly `v :: rs`.  The early `return True` is modeled by a
short-circuit flag, and the recursion is fuel-bounded. -/

def dfsCycle (G : Graph) : Nat → Nat → Option Nat → List Nat → List Nat → Bool × List Nat
  | 0, _, _, vis, _ => (false, vis)
  | fuel+1, v, parent, vis, rs =>
    (neighbors G v).foldl
      (fun acc nbr =>
        if acc.1 then acc
        else if nbr ∈ acc.2 then
          (if nbr ∈ v :: rs ∧ some nbr ≠ parent then (true, acc.2) else acc)
        else dfsCycle G fuel nbr (some v) acc.2 (v :: rs))
      (false, v :: vis)

/-- `has_cycle(G)`: DFS from every undiscovered node; `True` as soon as
any component shows a back edge, else `False`. -/
def has_cycle (G : Graph) : Bool :=
  (G.nodes.foldl
    (fun acc n =>
      if acc.1 then acc
      else if n ∈ acc.2 then acc
      else dfsCycle G (G.nodes.length + 1) n none acc.2 [])
    (false, [])).1

/-! ## Empty-graph behavior

networkx's `G.neighbors(v)` raises `NetworkXError` when `v` is not a
node of the graph, and Python's `max` raises `ValueError` on an empty
sequence; `bfs_with_depth(G, 0)` on a zero-node graph hits the former
on its first dequeue.  `bfs_with_depthE` is the same traversal as
`bfs_with_depth` with that failure made explicit. -/

/-- `G.neighbors(v)`, failing like networkx when `v` is not a node. -/
def neighborsE (G : Graph) (v : Nat) : Except String (List Nat) :=
  if v ∈ G.nodes then Except.ok (neighbors G v) else Except.error "node not in graph"

def bfsAuxE (G : Graph) :
    Nat → List (Nat × Nat) → List Nat → Except String (List (Nat × Nat))
  | 0, _, _ => Except.ok []
  | _+1, [], _ => Except.ok []
  | fuel+1, (node, depth) :: rest, visited =>
    match neighborsE G node with
    | Except.error e => Except.error e
    | Except.ok nbrs =>
      match bfsAuxE G fuel
          (rest ++ (nbrs.filter (fun m => decide (m ∉ visited))).map
            (fun m => (m, depth + 1)))
          (visited ++ nbrs.filter (fun m => decide (m ∉ visited))) with
      | Except.error e => Except.error e
      | Except.ok out => Except.ok ((node, depth) :: out)

/-- `bfs_with_depth(G, start)` with the neighbor-query failure explicit. -/
def bfs_with_depthE (G : Graph) (start : Nat) : Except String (List (Nat × Nat)) :=
  bfsAuxE G (G.nodes.length + 1) [(start, 0)] [start]

/-- The zero-node graph. -/
def zeroNodeGraph : Graph where
  nodes := []
  edges := []
  nodes_sorted := List.chain'_nil
  edges_symm := by simp
  edges_irrefl := by simp
  edges_mem := by simp

/-- Counterexample for C8: on the zero-node graph, `find_max_clique`
does not return a result (Python's `max` raises `ValueError` on the
empty clique list) and `bfs_with_depth(G, 0)` does not return a result
(`G.neighbors(0)` raises), so not every algorithm returns an
empty/trivial result. -/
theorem claim_C8_counterexample :
    (¬ ∃ S, find_max_clique zeroNodeGraph = some S) ∧
    (¬ ∃ r, bfs_with_depthE zeroNodeGraph 0 = Except.ok r) := by
  constructor
  · intro ⟨S, hS⟩
    simp [find_max_clique, find_cliques, zeroNodeGraph] at hS
  · intro ⟨r, hr⟩
    simp [bfs_with_depthE, bfsAuxE, neighborsE, zeroNodeGraph] at hr

/-- C8 (amended): on the zero-node graph, `greedy_coloring` returns the
empty mapping and `has_cycle` returns `false`, but `find_max_clique`
fails (max of an empty sequence) and `bfs_with_depth` from start node 0
fails at the neighbor query instead of returning a trivial result. -/
theorem claim_C8_empty_graph :
    greedy_coloring zeroNodeGraph = [] ∧
    has_cycle zeroNodeGraph = false ∧
    find_max_clique zeroNodeGraph = none ∧
    bfs_with_depthE zeroNodeGraph 0 = Except.error "node not in graph" := by
  refine ⟨rfl, rfl, ?_, rfl⟩
  simp [find_max_clique, find_cliques, zeroNodeGraph]

/-! ## Visualization state (`GraphApp` in `src/main.py`)

`draw_graph` composes per-node colors in fixed layer order: a copy of
`self.node_colors`, then the greedy-coloring colors (if
`self.current_coloring` is truthy — a non-`None`, nonempty dict), then
red for clique members (if `self.clique_nodes` is truthy), then the
transient `gold` and `lightgreen` highlight lists (if `highlight_nodes`
is truthy; callers pass a dict that always carries both keys, so it is
truthy whenever present).  Python list assignment `node_colors[n] = c`
is embedded as `List.set`. -/

/-- The `highlight_nodes` dict: `{'gold': [...], 'lightgreen': [...]}`. -/
structure Highlight where
  gold : List Nat
  lightgreen : List Nat
deriving DecidableEq, Repr

/-- The ten `matplotlib.colors.TABLEAU_COLORS` values. -/
def tableau_colors : List String :=
  ["#1f77b4", "#ff7f0e", "#2ca02c", "#d62728", "#9467bd",
   "#8c564b", "#e377c2", "#7f7f7f", "#bcbd22", "#17becf"]

/-- Modelled from the spec: `matplotlib.colors.CSS4_COLORS` is external
palette data (not in this repository) used only to extend the palette
beyond ten colors; no claim depends on its entries, so a stand-in
nonempty table represents it. -/
def css4_colors : List String := ["#F0F8FF"]

/-- `get_color_map(num_colors)`: first `num_colors` tableau colors, or
the tableau+CSS4 palette cycled when more are needed. -/
def get_color_map (num_colors : Nat) : List String :=
  if num_colors ≤ tableau_colors.length then tableau_colors.take num_colors
  else
    (List.range num_colors).map
      (fun i => (tableau_colors ++ css4_colors).getD
        (i % (tableau_colors ++ css4_colors).length) "")

/-- The coloring overlay loop of `draw_graph`:
`node_colors[node] = color_map[color_idx]` for each dict item. -/
def applyColoring (color_map : List String) (coloring : List (Nat × Nat))
    (colors : List String) : List String :=
  coloring.foldl (fun cs p => cs.set p.1 (color_map.getD p.2 "")) colors

/-- The `if self.current_coloring:` block of `draw_graph` (a `None` or
empty dict is falsy and leaves the colors unchanged). -/
def coloringLayer (coloring : Option (List (Nat × Nat)))
    (colors : List String) : List String :=
  match coloring with
  | none => colors
  | some cm =>
    if cm.isEmpty then colors
    else applyColoring (get_color_map ((cm.map Prod.snd).foldr max 0 + 1)) cm colors

/-- The `if self.clique_nodes:` block of `draw_graph`. -/
def cliqueLayer (clique : Option (List Nat)) (colors : List String) : List String :=
  match clique with
  | none => colors
  | some cl =>
    if cl.isEmpty then colors else cl.foldl (fun cs n => cs.set n "red") colors

/-- The `if highlight_nodes:` block of `draw_graph`: the `gold` loop,
then the `lightgreen` loop. -/
def highlightLayer (highlight : Option Highlight) (colors : List String) : List String :=
  match highlight with
  | none => colors
  | some h =>
    h.lightgreen.foldl (fun cs n => cs.set n "lightgreen")
      (h.gold.foldl (fun cs n => cs.set n "gold") colors)

/-- The per-node colors `draw_graph` passes to the renderer: base copy,
coloring overlay, clique overlay, then the transient highlight
overlays — later layers overwrite earlier ones per node. -/
def draw_graph_colors (coloring : Option (List (Nat × Nat)))
    (clique : Option (List Nat)) (highlight : Option Highlight)
    (node_colors : List String) : List String :=
  highlightLayer highlight (cliqueLayer clique (coloringLayer coloring node_colors))

theorem foldl_set_length {c : String} :
    ∀ (ns : List Nat) (l : List String),
      (ns.foldl (fun cs n => cs.set n c) l).length = l.length := by
  intro ns
  induction ns with
  | nil => intro l; rfl
  | cons n t ih =>
    intro l
    simp only [List.foldl_cons]
    rw [ih]
    simp

theorem foldl_set_getElem_not_mem {c : String} {v : Nat} :
    ∀ (ns : List Nat) (l : List String), v ∉ ns →
      (ns.foldl (fun cs n => cs.set n c) l)[v]? = l[v]? := by
  intro ns
  induction ns with
  | nil => intro l _; rfl
  | cons n t ih =>
    intro l hv
    simp only [List.mem_cons] at hv
    push_neg at hv
    simp only [List.foldl_cons]
    rw [ih _ hv.2, List.getElem?_set_ne (fun he => hv.1 he.symm)]

theorem foldl_set_getElem_mem {c : String} {v : Nat} :
    ∀ (ns : List Nat) (l : List String), v ∈ ns → v < l.length →
      (ns.foldl (fun cs n => cs.set n c) l)[v]? = some c := by
  intro ns
  induction ns with
  | nil => intro l hv _; simp at hv
  | cons n t ih =>
    intro l hv hlen
    simp only [List.foldl_cons]
    by_cases hvt : v ∈ t
    · exact ih _ hvt (by simpa using hlen)
    · have hvn : v = n := by
        rcases List.mem_cons.mp hv with he | ht
        · exact he
        · exact absurd ht hvt
      subst hvn
      rw [foldl_set_getElem_not_mem t _ hvt, List.getElem?_set_self]
      simp [hlen]

theorem applyColoring_getElem_not_mem {cmap : List String} {v : Nat} :
    ∀ (cm : List (Nat × Nat)) (l : List String), v ∉ cm.map Prod.fst →
      (applyColoring cmap cm l)[v]? = l[v]? := by
  intro cm
  induction cm with
  | nil => intro l _; rfl
  | cons p t ih =>
    intro l hv
    simp only [List.map_cons, List.mem_cons] at hv
    push_neg at hv
    simp only [applyColoring, List.foldl_cons]
    rw [show (t.foldl (fun cs p => cs.set p.1 (cmap.getD p.2 "")) (l.set p.1 (cmap.getD p.2 ""))) = applyColoring cmap t (l.set p.1 (cmap.getD p.2 "")) from rfl]
    rw [ih _ hv.2, List.getElem?_set_ne (fun he => hv.1 he.symm)]

theorem applyColoring_length {cmap : List String} :
    ∀ (cm : List (Nat × Nat)) (l : List String),
      (applyColoring cmap cm l).length = l.length := by
  intro cm
  induction cm with
  | nil => intro l; rfl
  | cons p t ih =>
    intro l
    simp only [applyColoring, List.foldl_cons]
    rw [show (t.foldl (fun cs p => cs.set p.1 (cmap.getD p.2 "")) (l.set p.1 (cmap.getD p.2 ""))) = applyColoring cmap t (l.set p.1 (cmap.getD p.2 "")) from rfl]
    rw [ih]
    simp

theorem applyColoring_getElem_lookup {cmap : List String} {v idx : Nat} :
    ∀ (cm : List (Nat × Nat)) (l : List String), (cm.map Prod.fst).Nodup →
      cm.lookup v = some idx → v < l.length →
      (applyColoring cmap cm l)[v]? = some (cmap.getD idx "") := by
  intro cm
  induction cm with
  | nil => intro l _ hlk _; simp [List.lookup] at hlk
  | cons p t ih =>
    intro l hnd hlk hlen
    simp only [List.map_cons, List.nodup_cons] at hnd
    simp only [applyColoring, List.foldl_cons]
    rw [show (t.foldl (fun cs p => cs.set p.1 (cmap.getD p.2 "")) (l.set p.1 (cmap.getD p.2 ""))) = applyColoring cmap t (l.set p.1 (cmap.getD p.2 "")) from rfl]
    simp only [List.lookup] at hlk
    cases hb : v == p.1 with
    | true =>
      rw [hb] at hlk
      have hvp : v = p.1 := beq_iff_eq.mp hb
      have hidx : p.2 = idx := Option.some.inj hlk
      have hvt : v ∉ t.map Prod.fst := by
        rw [hvp]
        exact hnd.1
      rw [applyColoring_getElem_not_mem t _ hvt, hvp, ← hidx, List.getElem?_set_self]
      have hlen2 : p.1 < l.length := hvp ▸ hlen
      simp [hlen2]
    | false =>
      rw [hb] at hlk
      exact ih _ hnd.2 hlk (by simpa using hlen)

theorem coloringLayer_length (coloring : Option (List (Nat × Nat)))
    (colors : List String) :
    (coloringLayer coloring colors).length = colors.length := by
  cases coloring with
  | none => rfl
  | some cm =>
    simp only [coloringLayer]
    by_cases he : cm.isEmpty
    · rw [if_pos he]
    · rw [if_neg he, applyColoring_length]

theorem cliqueLayer_length (clique : Option (List Nat)) (colors : List String) :
    (cliqueLayer clique colors).length = colors.length := by
  cases clique with
  | none => rfl
  | some cl =>
    simp only [cliqueLayer]
    by_cases he : cl.isEmpty
    · rw [if_pos he]
    · rw [if_neg he, foldl_set_length]

theorem coloringLayer_getElem_not_mem {coloring : Option (List (Nat × Nat))}
    {colors : List String} {v : Nat}
    (h : ∀ cm, coloring = some cm → v ∉ cm.map Prod.fst) :
    (coloringLayer coloring colors)[v]? = colors[v]? := by
  cases coloring with
  | none => rfl
  | some cm =>
    simp only [coloringLayer]
    by_cases he : cm.isEmpty
    · rw [if_pos he]
    · rw [if_neg he, applyColoring_getElem_not_mem _ _ (h cm rfl)]

theorem cliqueLayer_getElem_not_mem {clique : Option (List Nat)}
    {colors : List String} {v : Nat}
    (h : ∀ cl, clique = some cl → v ∉ cl) :
    (cliqueLayer clique colors)[v]? = colors[v]? := by
  cases clique with
  | none => rfl
  | some cl =>
    simp only [cliqueLayer]
    by_cases he : cl.isEmpty
    · rw [if_pos he]
    · rw [if_neg he, foldl_set_getElem_not_mem _ _ (h cl rfl)]

/-- C4: `draw_graph` composes per-node colors by fixed layering — base
palette, then coloring-derived colors, then the clique highlight, then
the transient step highlights — and later layers always win for a node:
a `lightgreen`-highlighted node renders `"lightgreen"` over everything;
a `gold`-highlighted node renders `"gold"` over clique and coloring; a
clique-member node renders `"red"` over its coloring color; a node
covered only by the coloring renders its palette color; an uncovered
node keeps its base color. -/
theorem claim_C4_draw_layering (coloring : Option (List (Nat × Nat)))
    (clique : Option (List Nat)) (h : Highlight) (base : List String)
    (v : Nat) (hv : v < base.length) :
    (v ∈ h.lightgreen →
      (draw_graph_colors coloring clique (some h) base)[v]? = some "lightgreen") ∧
    (v ∉ h.lightgreen → v ∈ h.gold →
      (draw_graph_colors coloring clique (some h) base)[v]? = some "gold") ∧
    (∀ cl, clique = some cl → ¬cl.isEmpty → v ∉ h.lightgreen → v ∉ h.gold →
      v ∈ cl →
      (draw_graph_colors coloring clique (some h) base)[v]? = some "red") ∧
    (∀ cm idx, coloring = some cm → (cm.map Prod.fst).Nodup →
      cm.lookup v = some idx → v ∉ h.lightgreen → v ∉ h.gold →
      (∀ cl, clique = some cl → v ∉ cl) →
      (draw_graph_colors coloring clique (some h) base)[v]? =
        some ((get_color_map ((cm.map Prod.snd).foldr max 0 + 1)).getD idx "")) ∧
    (v ∉ h.lightgreen → v ∉ h.gold →
      (∀ cl, clique = some cl → v ∉ cl) →
      (∀ cm, coloring = some cm → v ∉ cm.map Prod.fst) →
      (draw_graph_colors coloring clique (some h) base)[v]? = base[v]?) := by
  have hlen1 : (coloringLayer coloring base).length = base.length :=
    coloringLayer_length coloring base
  have hlen2 : (cliqueLayer clique (coloringLayer coloring base)).length =
      base.length := by
    rw [cliqueLayer_length, hlen1]
  have hunfold : draw_graph_colors coloring clique (some h) base =
      h.lightgreen.foldl (fun cs n => cs.set n "lightgreen")
        (h.gold.foldl (fun cs n => cs.set n "gold")
          (cliqueLayer clique (coloringLayer coloring base))) := rfl
  refine ⟨?_, ?_, ?_, ?_, ?_⟩
  · intro hlg
    rw [hunfold]
    apply foldl_set_getElem_mem _ _ hlg
    rw [foldl_set_length, hlen2]
    exact hv
  · intro hlg hg
    rw [hunfold, foldl_set_getElem_not_mem _ _ hlg]
    apply foldl_set_getElem_mem _ _ hg
    rw [hlen2]
    exact hv
  · intro cl hcl hcle hlg hg hvcl
    rw [hunfold, foldl_set_getElem_not_mem _ _ hlg,
      foldl_set_getElem_not_mem _ _ hg]
    rw [hcl]
    simp only [cliqueLayer]
    rw [if_neg hcle]
    apply foldl_set_getElem_mem _ _ hvcl
    rw [hlen1]
    exact hv
  · intro cm idx hcm hnd hlk hlg hg hncl
    rw [hunfold, foldl_set_getElem_not_mem _ _ hlg,
      foldl_set_getElem_not_mem _ _ hg,
      cliqueLayer_getElem_not_mem hncl, hcm]
    simp only [coloringLayer]
    have hne : ¬cm.isEmpty := by
      cases cm with
      | nil => simp [List.lookup] at hlk
      | cons p t => simp
    rw [if_neg hne]
    exact applyColoring_getElem_lookup cm base hnd hlk hv
  · intro hlg hg hncl hncm
    rw [hunfold, foldl_set_getElem_not_mem _ _ hlg,
      foldl_set_getElem_not_mem _ _ hg,
      cliqueLayer_getElem_not_mem hncl,
      coloringLayer_getElem_not_mem hncm]

/-- Witness for C4: a node in both the coloring and the clique renders
red, and a transient highlight renders over both, on concrete data. -/
theorem claim_C4_draw_layering_witness :
    ((0 : Nat) ∈ [0, 3] ∧ 1 < ([ "lightblue", "lightblue", "lightblue", "lightblue"] : List String).length) ∧
    ((draw_graph_colors (some [(0, 0), (1, 1), (2, 0), (3, 1)]) (some [1, 2])
        (some ⟨[3], [0, 3]⟩) ["lightblue", "lightblue", "lightblue", "lightblue"]) =
      ["lightgreen", "red", "red", "lightgreen"]) ∧
    (∀ cl, some [1, 2] = some cl → ¬cl.isEmpty → (1 : Nat) ∉ [0, 3] → (1 : Nat) ∉ ([] : List Nat) →
      (1 : Nat) ∈ cl →
      (draw_graph_colors (some [(0, 0), (1, 1), (2, 0), (3, 1)]) (some [1, 2])
        (some ⟨[], [0, 3]⟩) ["lightblue", "lightblue", "lightblue", "lightblue"])[1]? =
        some "red") :=
  ⟨⟨by decide, by decide⟩, by decide,
    (claim_C4_draw_layering (some [(0, 0), (1, 1), (2, 0), (3, 1)]) (some [1, 2])
      ⟨[], [0, 3]⟩ ["lightblue", "lightblue", "lightblue", "lightblue"] 1
      (by decide)).2.2.1⟩

/-! ## Animation (`animate_traversal` and `run_bfs`/`run_dfs`)

`animate_traversal` rejects the request with a log notice while the
previous worker thread is alive (`self.anim_thread.is_alive()` — thread
liveness is modeled as the `animThreadAlive` flag the guard checks);
otherwise it resets the node colors, clears the clique highlight, and
starts the worker, which builds the `FuncAnimation` driving `update`
over frames `0..len(order)` at 700ms (`repeat=False`).  The worker's
`step` dict accumulates across frames; each `update` call issues one
draw (two on the final frame).  Wall-clock cadence and thread
interleaving are outside the model. -/

/-- `f"{mode} – Step {frame}: Node {node} (Depth {depth})"`. -/
def stepTitle (mode : String) (frame : Nat) (p : Nat × Nat) : String :=
  mode ++ " – Step " ++ toString frame ++ ": Node " ++ toString p.1 ++
    " (Depth " ++ toString p.2 ++ ")"

/-- One call of the worker's `update(frame)`: returns the mutated
`step` highlight dict and the draw calls issued. -/
def update (order : List (Nat × Nat)) (mode : String) (frame : Nat)
    (step : Highlight) : Highlight × List (Highlight × String) :=
  if frame > 0 then
    let nd := order.getD (frame - 1) (0, 0)
    let step1 : Highlight := ⟨step.gold ++ [nd.1], step.lightgreen⟩
    let step2 : Highlight :=
      if frame > 1 then
        ⟨step1.gold, step1.lightgreen ++ [(order.getD (frame - 2) (0, 0)).1]⟩
      else step1
    if frame = order.length then
      (⟨step2.gold, step2.lightgreen ++ order.map Prod.fst⟩,
        [(step2, stepTitle mode frame nd),
         (⟨step2.gold, step2.lightgreen ++ order.map Prod.fst⟩, mode ++ " Completed")])
    else (step2, [(step2, stepTitle mode frame nd)])
  else
    if frame = order.length then
      (⟨step.gold, step.lightgreen ++ order.map Prod.fst⟩,
        [(step, mode),
         (⟨step.gold, step.lightgreen ++ order.map Prod.fst⟩, mode ++ " Completed")])
    else (step, [(step, mode)])

/-- The sequence of draw calls the animation issues: `update` driven
over frames `0 .. len(order)`. -/
def animationFrames (order : List (Nat × Nat)) (mode : String) :
    List (Highlight × String) :=
  ((List.range (order.length + 1)).foldl
    (fun acc frame =>
      ((update order mode frame acc.1).1, acc.2 ++ (update order mode frame acc.1).2))
    (⟨[], []⟩, [])).2

/-- The visualization state of `GraphApp`. -/
structure AppState where
  current_coloring : Option (List (Nat × Nat))
  clique_nodes : Option (List Nat)
  node_colors : List String
  animThreadAlive : Bool
  anim : Option (List (Highlight × String))
  log : List String
deriving DecidableEq

/-- `animate_traversal(order, mode)`. -/
def animate_traversal (s : AppState) (order : List (Nat × Nat)) (mode : String) :
    AppState :=
  if s.animThreadAlive then
    { s with log := s.log ++ ["Animation is already running. Wait until it finishes."] }
  else
    { s with node_colors := List.replicate 34 "lightblue",
             clique_nodes := none,
             anim := some (animationFrames order mode),
             animThreadAlive := true }

/-- `run_bfs()`: clears the coloring and the clique highlight, computes
and logs the BFS order, then calls `animate_traversal`. -/
def run_bfs (G : Graph) (s : AppState) : AppState :=
  animate_traversal
    { s with current_coloring := none, clique_nodes := none,
             log := s.log ++ ["=== BFS ===",
               "BFS order: " ++ toString ((bfs_with_depth G 0).map Prod.fst)] }
    (bfs_with_depth G 0) "BFS"

/-- `run_dfs()`: same shape as `run_bfs` with the DFS traversal. -/
def run_dfs (G : Graph) (s : AppState) : AppState :=
  animate_traversal
    { s with current_coloring := none, clique_nodes := none,
             log := s.log ++ ["=== DFS ===",
               "DFS order: " ++ toString ((dfs_with_depth G 0).map Prod.fst)] }
    (dfs_with_depth G 0) "DFS"

/-- End of an animation session: the final frame has rendered and the
worker thread has terminated, so the liveness flag the guard checks is
clear and a new animation may begin. -/
def animationFinished (s : AppState) : AppState :=
  { s with animThreadAlive := false }

/-- A state with an animation in flight and a coloring still stored. -/
def busyState : AppState where
  current_coloring := some [(0, 0)]
  clique_nodes := some [1]
  node_colors := List.replicate 34 "lightblue"
  animThreadAlive := true
  anim := some [(⟨[], []⟩, "BFS")]
  log := []

/-- Counterexample for C3: calling `run_bfs` while an animation is
active is rejected (the pending frames are untouched), but the stored
coloring assignment is cleared before the rejection check, so the
visualization state does change. -/
theorem claim_C3_counterexample :
    busyState.animThreadAlive = true ∧
    (run_bfs cycle4 busyState).anim = busyState.anim ∧
    (run_bfs cycle4 busyState).current_coloring ≠ busyState.current_coloring := by
  refine ⟨rfl, rfl, ?_⟩
  intro hcon
  simp [run_bfs, animate_traversal, busyState] at hcon

/-- C3 (amended): a call to `animate_traversal` made while an animation
session is active is rejected with only a log notice — the pending
frames, coloring, clique highlight, and node colors are untouched, and
no new session starts (at most one animation at a time: any call that
installs a new session was made with no session active).  However,
`run_bfs`/`run_dfs` clear the stored coloring and clique highlight
before the rejection check, so those two fields are reset even when the
animation request itself is rejected; the node colors and pending
frames are still untouched. -/
theorem claim_C3_animation_guard (s : AppState) (order : List (Nat × Nat))
    (mode : String) (hbusy : s.animThreadAlive = true) :
    animate_traversal s order mode =
      { s with log := s.log ++
          ["Animation is already running. Wait until it finishes."] } ∧
    (animate_traversal s order mode).anim = s.anim ∧
    (animate_traversal s order mode).current_coloring = s.current_coloring ∧
    (animate_traversal s order mode).clique_nodes = s.clique_nodes ∧
    (animate_traversal s order mode).node_colors = s.node_colors ∧
    (∀ G, (run_bfs G s).anim = s.anim ∧
      (run_bfs G s).node_colors = s.node_colors ∧
      (run_bfs G s).animThreadAlive = true ∧
      (run_bfs G s).current_coloring = none ∧
      (run_bfs G s).clique_nodes = none) ∧
    (∀ G, (run_dfs G s).anim = s.anim ∧
      (run_dfs G s).node_colors = s.node_colors ∧
      (run_dfs G s).animThreadAlive = true) ∧
    (∀ s2 : AppState, ∀ o2 m2, (animate_traversal s2 o2 m2).anim ≠ s2.anim →
      s2.animThreadAlive = false) := by
  refine ⟨by simp [animate_traversal, hbusy], by simp [animate_traversal, hbusy],
    by simp [animate_traversal, hbusy], by simp [animate_traversal, hbusy],
    by simp [animate_traversal, hbusy], ?_, ?_, ?_⟩
  · intro G
    refine ⟨?_, ?_, ?_, ?_, ?_⟩ <;> simp [run_bfs, animate_traversal, hbusy]
  · intro G
    refine ⟨?_, ?_, ?_⟩ <;> simp [run_dfs, animate_traversal, hbusy]
  · intro s2 o2 m2 hanim
    by_contra hcon
    rw [Bool.not_eq_false] at hcon
    exact hanim (by simp [animate_traversal, hcon])

/-- Witness for C3 (amended claim) at the concrete busy state. -/
theorem claim_C3_animation_guard_witness :
    busyState.animThreadAlive = true ∧
    (animate_traversal busyState [(0, 0)] "BFS" =
      { busyState with log := busyState.log ++
          ["Animation is already running. Wait until it finishes."] } ∧
    (animate_traversal busyState [(0, 0)] "BFS").anim = busyState.anim ∧
    (animate_traversal busyState [(0, 0)] "BFS").current_coloring =
      busyState.current_coloring ∧
    (animate_traversal busyState [(0, 0)] "BFS").clique_nodes =
      busyState.clique_nodes ∧
    (animate_traversal busyState [(0, 0)] "BFS").node_colors =
      busyState.node_colors ∧
    (∀ G, (run_bfs G busyState).anim = busyState.anim ∧
      (run_bfs G busyState).node_colors = busyState.node_colors ∧
      (run_bfs G busyState).animThreadAlive = true ∧
      (run_bfs G busyState).current_coloring = none ∧
      (run_bfs G busyState).clique_nodes = none) ∧
    (∀ G, (run_dfs G busyState).anim = busyState.anim ∧
      (run_dfs G busyState).node_colors = busyState.node_colors ∧
      (run_dfs G busyState).animThreadAlive = true) ∧
    (∀ s2 : AppState, ∀ o2 m2, (animate_traversal s2 o2 m2).anim ≠ s2.anim →
      s2.animThreadAlive = false)) :=
  ⟨by decide, claim_C3_animation_guard busyState [(0, 0)] "BFS" (by decide)⟩

theorem take_succ_fst {order : List (Nat × Nat)} {j : Nat} (hj : j < order.length) :
    (order.take (j+1)).map Prod.fst =
      (order.take j).map Prod.fst ++ [(order.getD j (0, 0)).1] := by
  rw [List.take_succ, List.getElem?_eq_getElem hj, List.getD_eq_getElem order (0,0) hj,
    List.map_append]
  rfl

theorem animFold_partial (order : List (Nat × Nat)) (mode : String) :
    ∀ k, 1 ≤ k → k ≤ order.length →
      (List.range k).foldl
        (fun acc frame =>
          ((update order mode frame acc.1).1, acc.2 ++ (update order mode frame acc.1).2))
        (⟨⟨[], []⟩, []⟩ : Highlight × List (Highlight × String)) =
      (⟨(order.take (k-1)).map Prod.fst, (order.take (k-2)).map Prod.fst⟩,
        (⟨⟨[], []⟩, mode⟩ : Highlight × String) ::
          (List.range (k-1)).map (fun j =>
            (⟨(order.take (j+1)).map Prod.fst, (order.take j).map Prod.fst⟩,
              stepTitle mode (j+1) (order.getD j (0, 0))))) := by
  intro k
  induction k with
  | zero => intro h1 _; omega
  | succ k ihk =>
    intro _ hk
    cases Nat.eq_zero_or_pos k with
    | inl hk0 =>
      subst hk0
      have hlen : order.length ≠ 0 := by omega
      rw [show List.range 1 = [0] from rfl]
      simp only [List.foldl_cons, List.foldl_nil]
      rw [show update order mode 0 ⟨[], []⟩ = (⟨[], []⟩, [(⟨[], []⟩, mode)]) from by
        simp only [update]
        rw [if_neg (by omega), if_neg (fun hcon => hlen hcon.symm)]]
      simp
    | inr hkpos =>
      have hklen : k < order.length := by omega
      rw [List.range_succ, List.foldl_append, ihk hkpos (by omega)]
      simp only [List.foldl_cons, List.foldl_nil]
      have hstep :
          update order mode k
            ⟨(order.take (k-1)).map Prod.fst, (order.take (k-2)).map Prod.fst⟩ =
          (⟨(order.take k).map Prod.fst, (order.take (k-1)).map Prod.fst⟩,
            [(⟨(order.take k).map Prod.fst, (order.take (k-1)).map Prod.fst⟩,
              stepTitle mode k (order.getD (k-1) (0, 0)))]) := by
        simp only [update]
        rw [if_pos hkpos, if_neg (by omega : ¬ k = order.length)]
        by_cases hk2 : k > 1
        · rw [if_pos hk2]
          have ht1 := @take_succ_fst order (k-1) (by omega)
          have ht2 := @take_succ_fst order (k-2) (by omega)
          have he1 : k - 1 + 1 = k := by omega
          have he2 : k - 2 + 1 = k - 1 := by omega
          rw [he1] at ht1
          rw [he2] at ht2
          rw [ht1, ht2]
        · have hk1 : k = 1 := by omega
          subst hk1
          rw [if_neg hk2]
          have ht : (order.take 1).map Prod.fst = [(order.getD 0 (0, 0)).1] := by
            have := @take_succ_fst order 0 (by omega)
            simpa using this
          simp [ht]
      rw [hstep]
      have hrange : List.range k = List.range (k-1) ++ [k-1] := by
        rw [show k = (k - 1) + 1 from by omega, List.range_succ]
        simp
      have he1 : k + 1 - 1 = k := by omega
      have he2 : k + 1 - 2 = k - 1 := by omega
      rw [he1, he2, hrange]
      simp only [List.map_append, List.map_cons, List.map_nil]
      have he3 : k - 1 + 1 = k := by omega
      rw [he3]
      simp

/-- C9: the animation's draw sequence — frame 0 draws no highlight with
the mode name as its title; each frame `i` (`1 ≤ i ≤ len`) draws with
the first `i` traversal nodes in the `gold` (current, category A) layer
and the first `i-1` in the `lightgreen` (already-visited, category B)
layer (the `i`-th node is appended to `gold`, and for `i > 1` the
`(i−1)`-th to `lightgreen`; `lightgreen` overrides `gold` in the draw,
so in the rendering exactly the `i`-th node shows as current), with a
title naming the step, node and depth; the final frame additionally
marks every traversed node as category B and draws a completion title;
and afterwards the session's running flag is cleared so a new call to
`animate_traversal` is accepted and installs a fresh session. -/
theorem claim_C9_animation_frames (order : List (Nat × Nat)) (mode : String)
    (hne : order ≠ []) :
    animationFrames order mode =
      (⟨⟨[], []⟩, mode⟩ :: (List.range order.length).map (fun j =>
        (⟨(order.take (j+1)).map Prod.fst, (order.take j).map Prod.fst⟩,
          stepTitle mode (j+1) (order.getD j (0, 0))))) ++
      [(⟨order.map Prod.fst,
          (order.take (order.length - 1)).map Prod.fst ++ order.map Prod.fst⟩,
        mode ++ " Completed")] ∧
    (∀ s : AppState, (animationFinished s).animThreadAlive = false) ∧
    (∀ s : AppState, ∀ o2 m2, s.animThreadAlive = false →
      (animate_traversal s o2 m2).anim = some (animationFrames o2 m2) ∧
      (animate_traversal s o2 m2).animThreadAlive = true) := by
  have hlen : 1 ≤ order.length := by
    cases order with
    | nil => exact absurd rfl hne
    | cons _ _ => simp
  refine ⟨?_, fun s => rfl, fun s o2 m2 hs =>
    ⟨by simp [animate_traversal, hs], by simp [animate_traversal, hs]⟩⟩
  rw [animationFrames, List.range_succ, List.foldl_append,
    animFold_partial order mode order.length hlen (Nat.le_refl _)]
  simp only [List.foldl_cons, List.foldl_nil]
  have hstep : update order mode order.length
      ⟨(order.take (order.length - 1)).map Prod.fst,
       (order.take (order.length - 2)).map Prod.fst⟩ =
      (⟨order.map Prod.fst,
          (order.take (order.length - 1)).map Prod.fst ++ order.map Prod.fst⟩,
        [(⟨order.map Prod.fst, (order.take (order.length - 1)).map Prod.fst⟩,
            stepTitle mode order.length (order.getD (order.length - 1) (0, 0))),
         (⟨order.map Prod.fst,
            (order.take (order.length - 1)).map Prod.fst ++ order.map Prod.fst⟩,
            mode ++ " Completed")]) := by
    simp only [update]
    rw [if_pos (by omega : order.length > 0), if_pos trivial]
    have ht1 := @take_succ_fst order (order.length - 1) (by omega)
    have he1 : order.length - 1 + 1 = order.length := by omega
    rw [he1, List.take_length] at ht1
    by_cases hl2 : order.length > 1
    · rw [if_pos hl2]
      have ht2 := @take_succ_fst order (order.length - 2) (by omega)
      have he2 : order.length - 2 + 1 = order.length - 1 := by omega
      rw [he2] at ht2
      rw [ht1, ht2]
    · have hl1 : order.length = 1 := by omega
      rw [if_neg hl2]
      rw [hl1] at ht1 ⊢
      simp only [show (1 : Nat) - 1 = 0 from rfl, List.take_zero, List.map_nil,
        List.nil_append] at ht1 ⊢
      rw [ht1]
  rw [hstep]
  have hrange : List.range order.length =
      List.range (order.length - 1) ++ [order.length - 1] := by
    rw [show order.length = (order.length - 1) + 1 from by omega, List.range_succ]
    simp
  rw [hrange]
  simp only [List.map_append, List.map_cons, List.map_nil]
  have he1 : order.length - 1 + 1 = order.length := by omega
  rw [he1, List.take_length]
  simp

/-- A two-step traversal order used to exercise the animation. -/
def wOrder : List (Nat × Nat) := [(0, 0), (1, 1)]

/-- Witness for C9: the frame sequence evaluates as expected on a
two-step BFS order and the claim instantiates there. -/
theorem claim_C9_animation_frames_witness :
    wOrder ≠ [] ∧
    animationFrames wOrder "BFS" =
      [(⟨[], []⟩, "BFS"),
       (⟨[0], []⟩, "BFS – Step 1: Node 0 (Depth 0)"),
       (⟨[0, 1], [0]⟩, "BFS – Step 2: Node 1 (Depth 1)"),
       (⟨[0, 1], [0, 0, 1]⟩, "BFS Completed")] ∧
    (animationFrames wOrder "BFS" =
      (⟨⟨[], []⟩, "BFS"⟩ :: (List.range wOrder.length).map (fun j =>
        (⟨(wOrder.take (j+1)).map Prod.fst, (wOrder.take j).map Prod.fst⟩,
          stepTitle "BFS" (j+1) (wOrder.getD j (0, 0))))) ++
      [(⟨wOrder.map Prod.fst,
          (wOrder.take (wOrder.length - 1)).map Prod.fst ++ wOrder.map Prod.fst⟩,
        "BFS" ++ " Completed")] ∧
    (∀ s : AppState, (animationFinished s).animThreadAlive = false) ∧
    (∀ s : AppState, ∀ o2 m2, s.animThreadAlive = false →
      (animate_traversal s o2 m2).anim = some (animationFrames o2 m2) ∧
      (animate_traversal s o2 m2).animThreadAlive = true)) :=
  ⟨by decide, by decide, claim_C9_animation_frames wOrder "BFS" (by decide)⟩

/-! ## Cycle detection: correctness of `has_cycle`

A simple cycle is formalized spec-side as a duplicate-free closed walk
on at least three nodes.  `has_cycle` is proved equal to `true` exactly
when such a cycle exists.  The forward direction reads a cycle off the
recursion stack at the detected back edge; the backward direction shows
that a `False` run leaves every node visited with at most one neighbor
among the nodes discovered before it, which no simple cycle allows. -/

/-- A simple cycle of `G`: a duplicate-free closed walk
`a, t₁, …, tₖ, z, a` with `k ≥ 1` (so at least three distinct nodes),
consecutively adjacent and with a closing edge from `z` back to `a`. -/
def hasSimpleCycle (G : Graph) : Prop :=
  ∃ a t z, t ≠ ([] : List Nat) ∧ (a :: (t ++ [z])).Nodup ∧
    List.Chain' (fun x y => G.adj x y = true) (a :: (t ++ [z])) ∧
    G.adj z a = true

/-- The part of `l` strictly after the first occurrence of `x`: when
`l` is a newest-first visited list, these are the nodes discovered
before `x`. -/
def afterIn (l : List Nat) (x : Nat) : List Nat :=
  l.drop (l.indexOf x + 1)

theorem afterIn_append {l : List Nat} {x : Nat} :
    ∀ ext : List Nat, x ∉ ext → afterIn (ext ++ l) x = afterIn l x := by
  intro ext
  induction ext with
  | nil => intro _; rfl
  | cons e es ih =>
    intro hnot
    have hne : e ≠ x := by
      intro h
      exact hnot (h ▸ List.mem_cons_self e es)
    have hnot2 : x ∉ es := fun h => hnot (List.mem_cons_of_mem e h)
    show afterIn (e :: (es ++ l)) x = afterIn l x
    simp only [afterIn]
    rw [List.indexOf_cons_ne _ hne, List.drop_succ_cons]
    exact ih hnot2

theorem afterIn_cons_self (x : Nat) (l : List Nat) : afterIn (x :: l) x = l := by
  simp only [afterIn, List.indexOf_cons_self, List.drop_succ_cons, List.drop_zero]

theorem mem_drop_of_le_indexOf {x : Nat} :
    ∀ (l : List Nat) (k : Nat), x ∈ l → k ≤ l.indexOf x → x ∈ l.drop k := by
  intro l
  induction l with
  | nil => intro k h; exact absurd h (List.not_mem_nil x)
  | cons a t ih =>
    intro k hmem hk
    cases k with
    | zero => exact hmem
    | succ k2 =>
      rw [List.drop_succ_cons]
      have hne : a ≠ x := by
        intro h
        rw [h, List.indexOf_cons_self] at hk
        omega
      have hxt : x ∈ t := by
        rcases List.mem_cons.mp hmem with h | h
        · exact absurd h.symm hne
        · exact h
      rw [List.indexOf_cons_ne _ hne] at hk
      exact ih k2 hxt (by omega)

theorem mem_afterIn_of_lt {l : List Nat} {x y : Nat} (hy : y ∈ l)
    (h : l.indexOf x < l.indexOf y) : y ∈ afterIn l x :=
  mem_drop_of_le_indexOf l (l.indexOf x + 1) hy h

theorem indexOf_ne_of_ne {l : List Nat} {x y : Nat} (hx : x ∈ l) (hne : x ≠ y) :
    l.indexOf x ≠ l.indexOf y := by
  intro heq
  have hxlt : l.indexOf x < l.length := List.indexOf_lt_length.mpr hx
  have h1 : l[l.indexOf x] = x := List.getElem_indexOf hxlt
  have hylt : l.indexOf y < l.length := by omega
  have h2 : l[l.indexOf y] = y := List.getElem_indexOf hylt
  simp only [heq] at h1
  exact hne (h1.symm.trans h2)

theorem exists_min_key (f : Nat → Nat) :
    ∀ l : List Nat, l ≠ [] → ∃ x ∈ l, ∀ y ∈ l, f x ≤ f y := by
  intro l
  induction l with
  | nil => intro h; exact absurd rfl h
  | cons a t ih =>
    intro _
    cases t with
    | nil =>
      refine ⟨a, List.mem_cons_self a [], ?_⟩
      intro y hy
      rw [List.mem_singleton] at hy
      rw [hy]
    | cons b t2 =>
      obtain ⟨x, hx, hmin⟩ := ih (List.cons_ne_nil b t2)
      by_cases hle : f x ≤ f a
      · refine ⟨x, List.mem_cons_of_mem a hx, ?_⟩
        intro y hy
        rcases List.mem_cons.mp hy with h | h
        · rw [h]; exact hle
        · exact hmin y h
      · refine ⟨a, List.mem_cons_self a _, ?_⟩
        intro y hy
        rcases List.mem_cons.mp hy with h | h
        · rw [h]
        · exact Nat.le_trans (Nat.le_of_not_le hle) (hmin y h)

theorem cycle_two_nbrs (G : Graph) {a z : Nat} {t : List Nat} (htne : t ≠ [])
    (hnodupC : (a :: (t ++ [z])).Nodup)
    (hchainC : List.Chain' (fun x y => G.adj x y = true) (a :: (t ++ [z])))
    (hclose : G.adj z a = true) :
    ∀ x ∈ a :: (t ++ [z]), ∃ y1 y2, y1 ≠ y2 ∧ y1 ∈ a :: (t ++ [z]) ∧
      y2 ∈ a :: (t ++ [z]) ∧ G.adj x y1 = true ∧ G.adj x y2 = true ∧
      y1 ≠ x ∧ y2 ≠ x := by
  have hanotz : a ∉ t ++ [z] := (List.nodup_cons.mp hnodupC).1
  have hanott : a ∉ t := fun h => hanotz (List.mem_append_left [z] h)
  have hanez : a ≠ z := by
    intro h
    exact hanotz (List.mem_append_right t (h ▸ List.mem_singleton_self z))
  have htz_nodup : (t ++ [z]).Nodup := (List.nodup_cons.mp hnodupC).2
  have hznott : z ∉ t := by
    intro h
    exact (List.disjoint_of_nodup_append htz_nodup) h (List.mem_singleton_self z)
  intro x hx
  rcases List.mem_cons.mp hx with hxa | hx2
  · -- x is the anchor node a
    cases t with
    | nil => exact absurd rfl htne
    | cons t0 trest =>
      have hchainC2 : List.Chain' (fun u w => G.adj u w = true)
          (a :: t0 :: (trest ++ [z])) := hchainC
      have hat0 : G.adj a t0 = true := (List.chain'_cons.mp hchainC2).1
      refine ⟨t0, z, ?_, ?_, ?_, ?_, ?_, ?_, ?_⟩
      · intro h
        exact hznott (by rw [← h]; exact List.mem_cons_self t0 trest)
      · exact List.mem_cons_of_mem a (List.mem_append_left [z] (List.mem_cons_self t0 trest))
      · exact List.mem_cons_of_mem a (List.mem_append_right _ (List.mem_singleton_self z))
      · rw [hxa]; exact hat0
      · rw [hxa, G.adj_symm]; exact hclose
      · intro h
        apply hanott
        rw [← hxa, ← h]
        exact List.mem_cons_self t0 trest
      · intro h
        exact hanez (by rw [h, hxa])
  · rcases List.mem_append.mp hx2 with hxt | hxz
    · -- x is an interior node of t
      obtain ⟨t1, t2, ht⟩ := List.append_of_mem hxt
      have hsplit : a :: (t ++ [z]) = (a :: t1) ++ (x :: (t2 ++ [z])) := by
        rw [ht]; simp
      have hchainS : List.Chain' (fun u w => G.adj u w = true)
          ((a :: t1) ++ (x :: (t2 ++ [z]))) := by
        rw [← hsplit]; exact hchainC
      have hnodupS : ((a :: t1) ++ (x :: (t2 ++ [z]))).Nodup := by
        rw [← hsplit]; exact hnodupC
      have hdisj := List.disjoint_of_nodup_append hnodupS
      obtain ⟨hc1, hc2, hc3⟩ := List.chain'_append.mp hchainS
      have hlastne : (a :: t1) ≠ ([] : List Nat) := List.cons_ne_nil a t1
      have hheadne : (t2 ++ [z]) ≠ ([] : List Nat) := by simp
      have hadj1 : G.adj ((a :: t1).getLast hlastne) x = true :=
        hc3 _ (by rw [List.getLast?_eq_getLast _ hlastne]; rfl) x rfl
      have hadjx1 : G.adj x ((a :: t1).getLast hlastne) = true := by
        rw [G.adj_symm]; exact hadj1
      have hadjx2 : G.adj x ((t2 ++ [z]).head hheadne) = true := by
        have h := (List.chain'_cons'.mp hc2).1
        exact h _ (by rw [List.head?_eq_head hheadne]; rfl)
      have hy1mem : (a :: t1).getLast hlastne ∈ a :: t1 := List.getLast_mem hlastne
      have hy2mem0 : (t2 ++ [z]).head hheadne ∈ t2 ++ [z] := List.head_mem hheadne
      have hy2memR : (t2 ++ [z]).head hheadne ∈ x :: (t2 ++ [z]) :=
        List.mem_cons_of_mem x hy2mem0
      have hxmemR : x ∈ x :: (t2 ++ [z]) := List.mem_cons_self x _
      refine ⟨(a :: t1).getLast hlastne, (t2 ++ [z]).head hheadne, ?_, ?_, ?_,
        hadjx1, hadjx2, ?_, ?_⟩
      · intro h
        exact hdisj hy1mem (by rw [h]; exact hy2memR)
      · rw [hsplit]; exact List.mem_append_left _ hy1mem
      · rw [hsplit]; exact List.mem_append_right _ hy2memR
      · intro h
        exact hdisj hy1mem (by rw [h]; exact hxmemR)
      · intro h
        have hxnot : x ∉ t2 ++ [z] := (List.nodup_cons.mp hnodupS.of_append_right).1
        exact hxnot (by rw [← h]; exact hy2mem0)
    · -- x is the closing node z
      rw [List.mem_singleton] at hxz
      have hlastne : (a :: t) ≠ ([] : List Nat) := List.cons_ne_nil a t
      have hchainS : List.Chain' (fun u w => G.adj u w = true)
          ((a :: t) ++ [z]) := hchainC
      obtain ⟨hc1, hc2, hc3⟩ := List.chain'_append.mp hchainS
      have hadjLast : G.adj ((a :: t).getLast hlastne) z = true :=
        hc3 _ (by rw [List.getLast?_eq_getLast _ hlastne]; rfl) z rfl
      have hlast_in_t : (a :: t).getLast hlastne ∈ t := by
        rw [List.getLast_cons htne]
        exact List.getLast_mem htne
      refine ⟨a, (a :: t).getLast hlastne, ?_, List.mem_cons_self a _, ?_, ?_, ?_, ?_, ?_⟩
      · intro h
        exact hanott (by rw [h]; exact hlast_in_t)
      · exact List.mem_cons_of_mem a (List.mem_append_left [z] hlast_in_t)
      · rw [hxz]; exact hclose
      · rw [hxz, G.adj_symm]; exact hadjLast
      · intro h
        rw [hxz] at h
        exact hanez h
      · intro h
        rw [hxz] at h
        exact hznott (by rw [← h]; exact hlast_in_t)

/-- Loop body of `dfs_cycle`'s neighbor scan, named for reuse in proofs. -/
def cycStep (G : Graph) (fuel v : Nat) (parent : Option Nat) (rs : List Nat) :
    Bool × List Nat → Nat → Bool × List Nat :=
  fun acc nbr =>
    if acc.1 then acc
    else if nbr ∈ acc.2 then
      (if nbr ∈ v :: rs ∧ some nbr ≠ parent then (true, acc.2) else acc)
    else dfsCycle G fuel nbr (some v) acc.2 (v :: rs)

theorem dfsCycle_succ (G : Graph) (fuel v : Nat) (parent : Option Nat)
    (vis rs : List Nat) :
    dfsCycle G (fuel + 1) v parent vis rs =
      (neighbors G v).foldl (cycStep G fuel v parent rs) (false, v :: vis) := rfl

theorem cycStep_false (G : Graph) (fuel v : Nat) (parent : Option Nat)
    (rs cvis : List Nat) (nbr : Nat) :
    cycStep G fuel v parent rs (false, cvis) nbr =
      if nbr ∈ cvis then
        (if nbr ∈ v :: rs ∧ some nbr ≠ parent then (true, cvis) else (false, cvis))
      else dfsCycle G fuel nbr (some v) cvis (v :: rs) := rfl

theorem foldl_cycStep_true (G : Graph) (fuel v : Nat) (parent : Option Nat)
    (rs : List Nat) :
    ∀ (L : List Nat) (acc : Bool × List Nat), acc.1 = true →
      L.foldl (cycStep G fuel v parent rs) acc = acc := by
  intro L
  induction L with
  | nil => intro acc _; rfl
  | cons nbr L2 ih =>
    intro acc h
    rw [List.foldl_cons]
    have hstep : cycStep G fuel v parent rs acc nbr = acc := by
      simp only [cycStep]
      rw [if_pos h]
    rw [hstep]
    exact ih acc h

/-- The per-root loop body of `has_cycle`, named for reuse in proofs. -/
def rootStep (G : Graph) : Bool × List Nat → Nat → Bool × List Nat :=
  fun acc n =>
    if acc.1 then acc
    else if n ∈ acc.2 then acc
    else dfsCycle G (G.nodes.length + 1) n none acc.2 []

theorem has_cycle_eq (G : Graph) :
    has_cycle G = (G.nodes.foldl (rootStep G) (false, [])).1 := rfl

theorem rootStep_false (G : Graph) (cvis : List Nat) (n : Nat) :
    rootStep G (false, cvis) n =
      if n ∈ cvis then (false, cvis)
      else dfsCycle G (G.nodes.length + 1) n none cvis [] := rfl

theorem foldl_rootStep_true (G : Graph) :
    ∀ (L : List Nat) (acc : Bool × List Nat), acc.1 = true →
      L.foldl (rootStep G) acc = acc := by
  intro L
  induction L with
  | nil => intro acc _; rfl
  | cons n L2 ih =>
    intro acc h
    rw [List.foldl_cons]
    have hstep : rootStep G acc n = acc := by
      simp only [rootStep]
      rw [if_pos h]
    rw [hstep]
    exact ih acc h

theorem dfsCycle_vis_mono (G : Graph) :
    ∀ (fuel v : Nat) (parent : Option Nat) (vis rs : List Nat),
      ∀ x ∈ vis, x ∈ (dfsCycle G fuel v parent vis rs).2 := by
  intro fuel
  induction fuel with
  | zero => intro v parent vis rs x hx; exact hx
  | succ f ih =>
    intro v parent vis rs x hx
    rw [dfsCycle_succ]
    have hfold : ∀ (L : List Nat) (acc : Bool × List Nat), x ∈ acc.2 →
        x ∈ (L.foldl (cycStep G f v parent rs) acc).2 := by
      intro L
      induction L with
      | nil => intro acc h; exact h
      | cons nbr L2 ihL =>
        intro acc h
        rw [List.foldl_cons]
        apply ihL
        simp only [cycStep]
        by_cases h1 : acc.1 = true
        · rw [if_pos h1]; exact h
        · rw [if_neg h1]
          by_cases h2 : nbr ∈ acc.2
          · rw [if_pos h2]
            by_cases h3 : nbr ∈ v :: rs ∧ some nbr ≠ parent
            · rw [if_pos h3]; exact h
            · rw [if_neg h3]; exact h
          · rw [if_neg h2]
            exact ih nbr (some v) acc.2 (v :: rs) x h
    exact hfold (neighbors G v) (false, v :: vis) (List.mem_cons_of_mem v hx)

/-- A back edge from `v` to a non-parent stack node closes a simple
cycle along the recursion stack. -/
theorem stack_back_edge_cycle (G : Graph) {v nbr : Nat} {rs : List Nat}
    {parent : Option Nat}
    (hchain : List.Chain' (fun x y => G.adj x y = true) (v :: rs))
    (hnodup : (v :: rs).Nodup)
    (hparent : parent = rs.head?)
    (hadj : G.adj v nbr = true)
    (hmem : nbr ∈ v :: rs)
    (hne : some nbr ≠ parent) :
    hasSimpleCycle G := by
  have hnv : nbr ≠ v := by
    intro h
    rw [h] at hadj
    rw [G.adj_irrefl] at hadj
    exact absurd hadj (by simp)
  have hmrs : nbr ∈ rs := by
    rcases List.mem_cons.mp hmem with h | h
    · exact absurd h hnv
    · exact h
  cases rs with
  | nil => exact absurd hmrs (List.not_mem_nil nbr)
  | cons p rest =>
    have hparent2 : parent = some p := hparent
    have hnp : nbr ≠ p := by
      intro h
      exact hne (by rw [h, hparent2])
    have hmrest : nbr ∈ rest := by
      rcases List.mem_cons.mp hmrs with h | h
      · exact absurd h hnp
      · exact h
    obtain ⟨r1, r2, hsplit⟩ := List.append_of_mem hmrest
    have hS : v :: p :: rest = (v :: ((p :: r1) ++ [nbr])) ++ r2 := by
      rw [hsplit]; simp
    refine ⟨v, p :: r1, nbr, List.cons_ne_nil p r1, ?_, ?_, ?_⟩
    · have h1 : ((v :: ((p :: r1) ++ [nbr])) ++ r2).Nodup := by
        rw [← hS]; exact hnodup
      exact h1.of_append_left
    · have h1 : List.Chain' (fun x y => G.adj x y = true)
          ((v :: ((p :: r1) ++ [nbr])) ++ r2) := by
        rw [← hS]; exact hchain
      exact (List.chain'_append.mp h1).1
    · rw [G.adj_symm]; exact hadj

/-- If a `dfs_cycle` call reports `True`, the graph has a simple cycle. -/
theorem dfsCycle_true (G : Graph) :
    ∀ (fuel v : Nat) (parent : Option Nat) (vis rs : List Nat),
      List.Chain' (fun x y => G.adj x y = true) (v :: rs) →
      (v :: rs).Nodup →
      parent = rs.head? →
      (∀ x ∈ v :: rs, x ∈ v :: vis) →
      (dfsCycle G fuel v parent vis rs).1 = true →
      hasSimpleCycle G := by
  intro fuel
  induction fuel with
  | zero =>
    intro v parent vis rs _ _ _ _ h
    have h0 : dfsCycle G 0 v parent vis rs = (false, vis) := rfl
    rw [h0] at h
    simp at h
  | succ f ih =>
    intro v parent vis rs hchain hnodup hparent hstk0 htrue
    rw [dfsCycle_succ] at htrue
    have hfold : ∀ (L : List Nat), (∀ y ∈ L, y ∈ neighbors G v) →
        ∀ cvis : List Nat, (∀ x ∈ v :: rs, x ∈ cvis) →
        (L.foldl (cycStep G f v parent rs) (false, cvis)).1 = true →
        hasSimpleCycle G := by
      intro L
      induction L with
      | nil =>
        intro _ cvis _ h
        simp at h
      | cons nbr L2 ihL =>
        intro hLsub cvis hstk h
        have hnbrN : nbr ∈ neighbors G v := hLsub nbr (List.mem_cons_self nbr L2)
        have hadj : G.adj v nbr = true := (mem_neighbors G).mp hnbrN
        have hL2sub : ∀ y ∈ L2, y ∈ neighbors G v :=
          fun y hy => hLsub y (List.mem_cons_of_mem nbr hy)
        rw [List.foldl_cons, cycStep_false] at h
        by_cases h2 : nbr ∈ cvis
        · rw [if_pos h2] at h
          by_cases h3 : nbr ∈ v :: rs ∧ some nbr ≠ parent
          · exact stack_back_edge_cycle G hchain hnodup hparent hadj h3.1 h3.2
          · rw [if_neg h3] at h
            exact ihL hL2sub cvis hstk h
        · rw [if_neg h2] at h
          rcases hSub : dfsCycle G f nbr (some v) cvis (v :: rs) with ⟨b, cv2⟩
          rw [hSub] at h
          cases b with
          | true =>
            refine ih nbr (some v) cvis (v :: rs) ?_ ?_ rfl ?_ ?_
            · exact List.chain'_cons.mpr ⟨by rw [G.adj_symm]; exact hadj, hchain⟩
            · exact List.nodup_cons.mpr ⟨fun hm => h2 (hstk nbr hm), hnodup⟩
            · intro x hx
              rcases List.mem_cons.mp hx with hh | hh
              · rw [hh]; exact List.mem_cons_self nbr cvis
              · exact List.mem_cons_of_mem nbr (hstk x hh)
            · rw [hSub]
          | false =>
            refine ihL hL2sub cv2 ?_ h
            intro x hx
            have hmono := dfsCycle_vis_mono G f nbr (some v) cvis (v :: rs) x (hstk x hx)
            rw [hSub] at hmono
            exact hmono
    exact hfold (neighbors G v) (fun y hy => hy) (v :: vis) hstk0 htrue

/-- Main invariant of a `dfs_cycle` call that returns `False`: the
final visited list extends `v :: vis`; it stays duplicate-free and
inside the node set; every visited node not on the given stack has all
of its neighbors visited; and every newly visited node has at most one
neighbor among the nodes discovered before it. -/
theorem dfsCycle_false (G : Graph) :
    ∀ (fuel v : Nat) (parent : Option Nat) (vis rs vres : List Nat),
      (G.nodes.filter (fun x => decide (x ∉ vis))).length ≤ fuel →
      v ∈ G.nodes → v ∉ vis →
      vis.Nodup →
      (∀ x ∈ vis, x ∈ G.nodes) →
      (∀ x ∈ rs, x ∈ vis) →
      parent = rs.head? →
      (∀ y ∈ vis, y ∉ rs → ∀ z, G.adj y z = true → z ∈ vis) →
      dfsCycle G fuel v parent vis rs = (false, vres) →
      (∃ ext, vres = ext ++ v :: vis) ∧
      vres.Nodup ∧
      (∀ x ∈ vres, x ∈ G.nodes) ∧
      (∀ y ∈ vres, y ∉ rs → ∀ z, G.adj y z = true → z ∈ vres) ∧
      (∀ x ∈ vres, x ∉ vis → ∀ y z, G.adj x y = true → G.adj x z = true →
        y ∈ afterIn vres x → z ∈ afterIn vres x → y = z) := by
  intro fuel
  induction fuel with
  | zero =>
    intro v parent vis rs vres hfuel hv hvnot _ _ _ _ _ _
    exfalso
    have hvin : v ∈ G.nodes.filter (fun x => decide (x ∉ vis)) :=
      List.mem_filter.mpr ⟨hv, by simpa using hvnot⟩
    have hpos := List.length_pos.mpr (List.ne_nil_of_mem hvin)
    omega
  | succ f ih =>
    intro v parent vis rs vres hfuel hv hvnot hvisnd hvisnodes hrssub hparent hclosed heq
    rw [dfsCycle_succ] at heq
    have hfold : ∀ (L : List Nat), (∀ y ∈ L, y ∈ neighbors G v) →
        ∀ (cvis vres2 : List Nat),
        (∃ ext, cvis = ext ++ v :: vis) →
        cvis.Nodup →
        (∀ x ∈ cvis, x ∈ G.nodes) →
        (∀ y ∈ cvis, y ∉ v :: rs → ∀ z, G.adj y z = true → z ∈ cvis) →
        (∀ x ∈ cvis, x ∉ vis → x ≠ v → ∀ y z, G.adj x y = true → G.adj x z = true →
          y ∈ afterIn cvis x → z ∈ afterIn cvis x → y = z) →
        (∀ y ∈ neighbors G v, y ∉ L → y ∈ vis → some y = parent) →
        (∀ y ∈ neighbors G v, y ∉ L → y ∈ cvis) →
        (G.nodes.filter (fun x => decide (x ∉ cvis))).length ≤ f →
        L.foldl (cycStep G f v parent rs) (false, cvis) = (false, vres2) →
        (∃ ext, vres2 = ext ++ v :: vis) ∧
        vres2.Nodup ∧
        (∀ x ∈ vres2, x ∈ G.nodes) ∧
        (∀ x ∈ cvis, x ∈ vres2) ∧
        (∀ y ∈ vres2, y ∉ v :: rs → ∀ z, G.adj y z = true → z ∈ vres2) ∧
        (∀ x ∈ vres2, x ∉ vis → x ≠ v → ∀ y z, G.adj x y = true → G.adj x z = true →
          y ∈ afterIn vres2 x → z ∈ afterIn vres2 x → y = z) ∧
        (∀ y ∈ neighbors G v, y ∈ vis → some y = parent) ∧
        (∀ y ∈ neighbors G v, y ∈ vres2) := by
      intro L
      induction L with
      | nil =>
        intro _ cvis vres2 hext hnd hnodes hclo hS hpar hin _ heq2
        have hcv : cvis = vres2 := congrArg Prod.snd heq2
        subst hcv
        refine ⟨hext, hnd, hnodes, fun x hx => hx, hclo, hS, ?_, ?_⟩
        · intro y hy hyvis
          exact hpar y hy (List.not_mem_nil y) hyvis
        · intro y hy
          exact hin y hy (List.not_mem_nil y)
      | cons nbr L2 ihL =>
        intro hLsub cvis vres2 hext hnd hnodes hclo hS hpar hin hfl heq2
        have hnbrN : nbr ∈ neighbors G v := hLsub nbr (List.mem_cons_self nbr L2)
        have hadjvn : G.adj v nbr = true := (mem_neighbors G).mp hnbrN
        have hL2sub : ∀ y ∈ L2, y ∈ neighbors G v :=
          fun y hy => hLsub y (List.mem_cons_of_mem nbr hy)
        rw [List.foldl_cons, cycStep_false] at heq2
        by_cases h2 : nbr ∈ cvis
        · rw [if_pos h2] at heq2
          by_cases h3 : nbr ∈ v :: rs ∧ some nbr ≠ parent
          · rw [if_pos h3] at heq2
            rw [foldl_cycStep_true G f v parent rs L2 (true, cvis) rfl] at heq2
            exact absurd (congrArg Prod.fst heq2) (by simp)
          · rw [if_neg h3] at heq2
            have hnbr_par : nbr ∈ vis → some nbr = parent := by
              intro hnbrvis
              by_cases hstk : nbr ∈ v :: rs
              · by_cases hp : some nbr = parent
                · exact hp
                · exact absurd ⟨hstk, hp⟩ h3
              · exfalso
                have hnrs : nbr ∉ rs := fun hh => hstk (List.mem_cons_of_mem v hh)
                have hvin : v ∈ vis := hclosed nbr hnbrvis hnrs v
                  (by rw [G.adj_symm]; exact hadjvn)
                exact hvnot hvin
            refine ihL hL2sub cvis vres2 hext hnd hnodes hclo hS ?_ ?_ hfl heq2
            · intro y hy hyL2 hyvis
              by_cases hyn : y = nbr
              · rw [hyn]
                exact hnbr_par (by rw [← hyn]; exact hyvis)
              · refine hpar y hy ?_ hyvis
                intro hm
                rcases List.mem_cons.mp hm with hh | hh
                · exact hyn hh
                · exact hyL2 hh
            · intro y hy hyL2
              by_cases hyn : y = nbr
              · rw [hyn]; exact h2
              · refine hin y hy ?_
                intro hm
                rcases List.mem_cons.mp hm with hh | hh
                · exact hyn hh
                · exact hyL2 hh
        · rw [if_neg h2] at heq2
          rcases hSub : dfsCycle G f nbr (some v) cvis (v :: rs) with ⟨b, cv2⟩
          rw [hSub] at heq2
          cases b with
          | true =>
            rw [foldl_cycStep_true G f v parent rs L2 (true, cv2) rfl] at heq2
            exact absurd (congrArg Prod.fst heq2) (by simp)
          | false =>
            obtain ⟨extC, hvC⟩ := hext
            have hvmem : v ∈ cvis := by
              rw [hvC]; exact List.mem_append_right extC (List.mem_cons_self v vis)
            have hvis_sub : ∀ x ∈ vis, x ∈ cvis := by
              intro x hx
              rw [hvC]; exact List.mem_append_right extC (List.mem_cons_of_mem v hx)
            have hstk_sub : ∀ x ∈ v :: rs, x ∈ cvis := by
              intro x hx
              rcases List.mem_cons.mp hx with hh | hh
              · rw [hh]; exact hvmem
              · exact hvis_sub x (hrssub x hh)
            have hc := ih nbr (some v) cvis (v :: rs) cv2 hfl
              (neighbors_subset_nodes G v nbr hnbrN) h2 hnd hnodes hstk_sub rfl
              hclo hSub
            obtain ⟨⟨ext2, hext2⟩, hnd2, hnodes2, hclo2, hS2⟩ := hc
            have hcv_sub : ∀ x ∈ cvis, x ∈ cv2 := by
              intro x hx
              rw [hext2]; exact List.mem_append_right ext2 (List.mem_cons_of_mem nbr hx)
            have hnbr_cv2 : nbr ∈ cv2 := by
              rw [hext2]; exact List.mem_append_right ext2 (List.mem_cons_self nbr cvis)
            have hpre : cv2 = (ext2 ++ [nbr]) ++ cvis := by
              rw [hext2]; simp
            have hS_new : ∀ x ∈ cv2, x ∉ vis → x ≠ v →
                ∀ y z, G.adj x y = true → G.adj x z = true →
                  y ∈ afterIn cv2 x → z ∈ afterIn cv2 x → y = z := by
              intro x hx hxvis hxv y z hy hz hya hza
              by_cases hxc : x ∈ cvis
              · have hxnotpre : x ∉ ext2 ++ [nbr] := by
                  have hdisj : List.Disjoint (ext2 ++ [nbr]) cvis := by
                    have hnd3 := hnd2
                    rw [hpre] at hnd3
                    exact List.disjoint_of_nodup_append hnd3
                  intro hm
                  exact hdisj hm hxc
                have hstab : afterIn cv2 x = afterIn cvis x := by
                  rw [hpre]; exact afterIn_append _ hxnotpre
                rw [hstab] at hya hza
                exact hS x hxc hxvis hxv y z hy hz hya hza
              · exact hS2 x hx hxc y z hy hz hya hza
            have hrec := ihL hL2sub cv2 vres2
              ⟨ext2 ++ nbr :: extC, by rw [hext2, hvC]; simp⟩
              hnd2 hnodes2 hclo2 hS_new
              (by
                intro y hy hyL2 hyvis
                by_cases hyn : y = nbr
                · exact absurd (hvis_sub nbr (by rw [← hyn]; exact hyvis)) h2
                · refine hpar y hy ?_ hyvis
                  intro hm
                  rcases List.mem_cons.mp hm with hh | hh
                  · exact hyn hh
                  · exact hyL2 hh)
              (by
                intro y hy hyL2
                by_cases hyn : y = nbr
                · rw [hyn]; exact hnbr_cv2
                · refine hcv_sub y (hin y hy ?_)
                  intro hm
                  rcases List.mem_cons.mp hm with hh | hh
                  · exact hyn hh
                  · exact hyL2 hh)
              (by
                have hmono := @filter_length_mono
                  (fun x => decide (x ∉ cv2)) (fun x => decide (x ∉ cvis))
                  (by
                    intro x hx
                    simp only [decide_eq_true_eq] at hx ⊢
                    intro hmem
                    exact hx (hcv_sub x hmem))
                  G.nodes
                exact Nat.le_trans hmono hfl)
              heq2
            obtain ⟨r1, r2, r3, r4, r5, r6, r7, r8⟩ := hrec
            exact ⟨r1, r2, r3, fun x hx => r4 x (hcv_sub x hx), r5, r6, r7, r8⟩
    have hres := hfold (neighbors G v) (fun y hy => hy) (v :: vis) vres
      ⟨[], rfl⟩
      (List.nodup_cons.mpr ⟨hvnot, hvisnd⟩)
      (by
        intro x hx
        rcases List.mem_cons.mp hx with hh | hh
        · rw [hh]; exact hv
        · exact hvisnodes x hh)
      (by
        intro y hy hynot z hadj
        rcases List.mem_cons.mp hy with hh | hh
        · exfalso
          apply hynot
          rw [hh]
          exact List.mem_cons_self v rs
        · exact List.mem_cons_of_mem v
            (hclosed y hh (fun hr => hynot (List.mem_cons_of_mem v hr)) z hadj))
      (by
        intro x hx hxvis hxv
        exfalso
        rcases List.mem_cons.mp hx with hh | hh
        · exact hxv hh
        · exact hxvis hh)
      (by intro y hy hyn; exact absurd hy hyn)
      (by intro y hy hyn; exact absurd hy hyn)
      (by
        have hdec := unvisited_cons G hv hvnot
        omega)
      heq
    obtain ⟨⟨ext, hE⟩, hND, hNODES, hMONO, hCLO, hSNEW, hPAR, hNBRS⟩ := hres
    refine ⟨⟨ext, hE⟩, hND, hNODES, ?_, ?_⟩
    · intro y hy hynot z hadj
      by_cases hyv : y = v
      · rw [hyv] at hadj
        exact hNBRS z ((mem_neighbors G).mpr hadj)
      · refine hCLO y hy ?_ z hadj
        intro hm
        rcases List.mem_cons.mp hm with hh | hh
        · exact hyv hh
        · exact hynot hh
    · intro x hx hxvis y z hy hz hya hza
      by_cases hxv : x = v
      · subst hxv
        have hvext : x ∉ ext := by
          intro hm
          rw [hE] at hND
          exact (List.disjoint_of_nodup_append hND) hm (List.mem_cons_self x vis)
        have hafter : afterIn vres x = vis := by
          rw [hE, afterIn_append _ hvext, afterIn_cons_self]
        rw [hafter] at hya hza
        have h1 := hPAR y ((mem_neighbors G).mpr hy) hya
        have h2 := hPAR z ((mem_neighbors G).mpr hz) hza
        exact Option.some.inj (h1.trans h2.symm)
      · exact hSNEW x hx hxvis hxv y z hy hz hya hza

theorem has_cycle_sound (G : Graph) (h : has_cycle G = true) : hasSimpleCycle G := by
  rw [has_cycle_eq] at h
  have hfold : ∀ (l cvis : List Nat),
      (l.foldl (rootStep G) (false, cvis)).1 = true → hasSimpleCycle G := by
    intro l
    induction l with
    | nil =>
      intro cvis h2
      simp at h2
    | cons n t ih =>
      intro cvis h2
      rw [List.foldl_cons, rootStep_false] at h2
      by_cases hn : n ∈ cvis
      · rw [if_pos hn] at h2
        exact ih cvis h2
      · rw [if_neg hn] at h2
        rcases hSub : dfsCycle G (G.nodes.length + 1) n none cvis [] with ⟨b, cv2⟩
        rw [hSub] at h2
        cases b with
        | true =>
          refine dfsCycle_true G (G.nodes.length + 1) n none cvis []
            (List.chain'_singleton n)
            (by simp) rfl ?_ ?_
          · intro x hx
            rcases List.mem_cons.mp hx with hh | hh
            · rw [hh]; exact List.mem_cons_self n cvis
            · exact absurd hh (List.not_mem_nil x)
          · rw [hSub]
        | false =>
          exact ih cv2 h2
  exact hfold G.nodes [] h

/-- The final contradiction: with a complete, duplicate-free visited
list in which every node has at most one neighbor among the nodes
discovered before it, no simple cycle can exist (the newest node of a
cycle would have two distinct earlier-discovered neighbors). -/
theorem no_cycle_of_uniq (G : Graph) (visf : List Nat)
    (hall : ∀ x ∈ G.nodes, x ∈ visf)
    (hS : ∀ x ∈ visf, ∀ y z, G.adj x y = true → G.adj x z = true →
      y ∈ afterIn visf x → z ∈ afterIn visf x → y = z) :
    ¬ hasSimpleCycle G := by
  rintro ⟨a, t, z, htne, hnodupC, hchainC, hclose⟩
  have h2n := cycle_two_nbrs G htne hnodupC hchainC hclose
  have hCsub : ∀ x ∈ a :: (t ++ [z]), x ∈ visf := by
    intro x hx
    obtain ⟨y1, y2, _, _, _, had1, _, _, _⟩ := h2n x hx
    exact hall x (G.adj_mem_left had1)
  obtain ⟨x, hxC, hxmin⟩ := exists_min_key (fun u => visf.indexOf u)
    (a :: (t ++ [z])) (List.cons_ne_nil a (t ++ [z]))
  obtain ⟨y1, y2, hne12, hy1C, hy2C, had1, had2, hne1x, hne2x⟩ := h2n x hxC
  have hxvf : x ∈ visf := hCsub x hxC
  have hy1vf : y1 ∈ visf := hCsub y1 hy1C
  have hy2vf : y2 ∈ visf := hCsub y2 hy2C
  have hlt1 : visf.indexOf x < visf.indexOf y1 :=
    Nat.lt_of_le_of_ne (hxmin y1 hy1C) (indexOf_ne_of_ne hxvf (fun h => hne1x h.symm))
  have hlt2 : visf.indexOf x < visf.indexOf y2 :=
    Nat.lt_of_le_of_ne (hxmin y2 hy2C) (indexOf_ne_of_ne hxvf (fun h => hne2x h.symm))
  exact hne12 (hS x hxvf y1 y2 had1 had2
    (mem_afterIn_of_lt hy1vf hlt1) (mem_afterIn_of_lt hy2vf hlt2))

theorem has_cycle_complete (G : Graph) (h : has_cycle G = false) :
    ¬ hasSimpleCycle G := by
  rw [has_cycle_eq] at h
  have hfold : ∀ (l : List Nat), (∀ x ∈ l, x ∈ G.nodes) →
      ∀ (cvis vres : List Nat),
      cvis.Nodup →
      (∀ x ∈ cvis, x ∈ G.nodes) →
      (∀ y ∈ cvis, ∀ z, G.adj y z = true → z ∈ cvis) →
      (∀ x ∈ cvis, ∀ y z, G.adj x y = true → G.adj x z = true →
        y ∈ afterIn cvis x → z ∈ afterIn cvis x → y = z) →
      l.foldl (rootStep G) (false, cvis) = (false, vres) →
      (∀ x ∈ l, x ∈ vres) ∧ (∀ x ∈ cvis, x ∈ vres) ∧
      vres.Nodup ∧
      (∀ x ∈ vres, ∀ y z, G.adj x y = true → G.adj x z = true →
        y ∈ afterIn vres x → z ∈ afterIn vres x → y = z) := by
    intro l
    induction l with
    | nil =>
      intro _ cvis vres hnd _ _ hS heq
      have hcv : cvis = vres := congrArg Prod.snd heq
      subst hcv
      exact ⟨fun x hx => absurd hx (List.not_mem_nil x), fun x hx => hx, hnd, hS⟩
    | cons n t ih =>
      intro hlsub cvis vres hnd hnodes hclo hS heq
      have hn_nodes : n ∈ G.nodes := hlsub n (List.mem_cons_self n t)
      have htsub : ∀ x ∈ t, x ∈ G.nodes := fun x hx => hlsub x (List.mem_cons_of_mem n hx)
      rw [List.foldl_cons, rootStep_false] at heq
      by_cases hn : n ∈ cvis
      · rw [if_pos hn] at heq
        obtain ⟨r1, r2, r3, r4⟩ := ih htsub cvis vres hnd hnodes hclo hS heq
        refine ⟨?_, r2, r3, r4⟩
        intro x hx
        rcases List.mem_cons.mp hx with hh | hh
        · rw [hh]; exact r2 n hn
        · exact r1 x hh
      · rw [if_neg hn] at heq
        rcases hSub : dfsCycle G (G.nodes.length + 1) n none cvis [] with ⟨b, cv2⟩
        rw [hSub] at heq
        cases b with
        | true =>
          rw [foldl_rootStep_true G t (true, cv2) rfl] at heq
          exact absurd (congrArg Prod.fst heq) (by simp)
        | false =>
          have hc := dfsCycle_false G (G.nodes.length + 1) n none cvis [] cv2
            (Nat.le_trans (List.length_filter_le _ _) (Nat.le_succ _))
            hn_nodes hn hnd hnodes
            (fun x hx => absurd hx (List.not_mem_nil x)) rfl
            (fun y hy _ z hz => hclo y hy z hz)
            hSub
          obtain ⟨⟨ext2, hext2⟩, hnd2, hnodes2, hclo2, hS2⟩ := hc
          have hsub2 : ∀ x ∈ cvis, x ∈ cv2 := by
            intro x hx
            rw [hext2]; exact List.mem_append_right ext2 (List.mem_cons_of_mem n hx)
          have hn_cv2 : n ∈ cv2 := by
            rw [hext2]; exact List.mem_append_right ext2 (List.mem_cons_self n cvis)
          have hpre : cv2 = (ext2 ++ [n]) ++ cvis := by
            rw [hext2]; simp
          have hS_cv2 : ∀ x ∈ cv2, ∀ y z, G.adj x y = true → G.adj x z = true →
              y ∈ afterIn cv2 x → z ∈ afterIn cv2 x → y = z := by
            intro x hx y z hy hz hya hza
            by_cases hxc : x ∈ cvis
            · have hxnotpre : x ∉ ext2 ++ [n] := by
                have hdisj : List.Disjoint (ext2 ++ [n]) cvis := by
                  have hnd3 := hnd2
                  rw [hpre] at hnd3
                  exact List.disjoint_of_nodup_append hnd3
                intro hm
                exact hdisj hm hxc
              have hstab : afterIn cv2 x = afterIn cvis x := by
                rw [hpre]; exact afterIn_append _ hxnotpre
              rw [hstab] at hya hza
              exact hS x hxc y z hy hz hya hza
            · exact hS2 x hx hxc y z hy hz hya hza
          have hclo_cv2 : ∀ y ∈ cv2, ∀ z, G.adj y z = true → z ∈ cv2 :=
            fun y hy z hz => hclo2 y hy (List.not_mem_nil y) z hz
          obtain ⟨r1, r2, r3, r4⟩ := ih htsub cv2 vres hnd2 hnodes2 hclo_cv2 hS_cv2 heq
          refine ⟨?_, fun x hx => r2 x (hsub2 x hx), r3, r4⟩
          intro x hx
          rcases List.mem_cons.mp hx with hh | hh
          · rw [hh]; exact r2 n hn_cv2
          · exact r1 x hh
  have hpair : G.nodes.foldl (rootStep G) (false, []) =
      (false, (G.nodes.foldl (rootStep G) (false, [])).2) := by
    have h2 := @Prod.mk.eta _ _ (G.nodes.foldl (rootStep G) (false, []))
    rw [h] at h2
    exact h2.symm
  obtain ⟨rall, _, _, rS⟩ := hfold G.nodes (fun x hx => hx) []
    ((G.nodes.foldl (rootStep G) (false, [])).2)
    List.nodup_nil
    (fun x hx => absurd hx (List.not_mem_nil x))
    (fun y hy => absurd hy (List.not_mem_nil y))
    (fun x hx => absurd hx (List.not_mem_nil x))
    hpair
  exact no_cycle_of_uniq G _ rall rS

/-- C5: `has_cycle(G)` returns `true` exactly when `G` contains a
simple cycle (a duplicate-free closed walk on at least three nodes).
The right-hand side mentions no traversal order, so the boolean result
is independent of the node visit order; in particular the function
returns `false` for every tree and `true` for any graph containing a
cycle. -/
theorem claim_C5_has_cycle (G : Graph) :
    has_cycle G = true ↔ hasSimpleCycle G := by
  constructor
  · exact has_cycle_sound G
  · intro hcyc
    cases hc : has_cycle G with
    | true => rfl
    | false => exact absurd hcyc (has_cycle_complete G hc)

def triangleG : Graph where
  nodes := [0, 1, 2]
  edges := [(0,1), (1,0), (1,2), (2,1), (0,2), (2,0)]
  nodes_sorted := by
    simp only [List.chain'_cons, List.chain'_singleton, and_true]
    omega
  edges_symm := by decide
  edges_irrefl := by decide
  edges_mem := by decide

def path3 : Graph where
  nodes := [0, 1, 2]
  edges := [(0,1), (1,0), (1,2), (2,1)]
  nodes_sorted := by
    simp only [List.chain'_cons, List.chain'_singleton, and_true]
    omega
  edges_symm := by decide
  edges_irrefl := by decide
  edges_mem := by decide

theorem has_cycle_triangle : has_cycle triangleG = true := by decide

theorem has_cycle_path3 : has_cycle path3 = false := by decide
